import Mathlib

/-!
Verification of the realtor chat-bot's filter-extraction and dialogue-flow core
(`app/core/llm.py`, `app/core/questions.py`, `app/bot/handlers.py`,
`app/services/api_client.py`).

Text is modelled as a list of Unicode code points (`List Nat`).  Python string
operations (`str.lower`, `str.strip`, `re.sub`, `re.split`, `re.findall`,
substring tests) are translated into executable functions on code-point lists;
the case-folding function is modelled on the Basic-Latin and Cyrillic ranges the
bot works with and is the identity elsewhere.  Python dicts holding filter
criteria are modelled as insertion-ordered association lists over a small value
type (`Val`), with Python truthiness made explicit.
-/

namespace Realtor

/-- Python whitespace for `str.strip`, `str.split()` and the regex class
the code uses (space, tab, LF, VT, FF, CR). -/
def isSpaceB (c : Nat) : Bool :=
  c == 32 || c == 9 || c == 10 || c == 11 || c == 12 || c == 13

/-- Regex word character (class of a Unicode-aware word char, on the alphabet the
bot handles): ASCII digits, ASCII letters, underscore, and the Cyrillic block
U+0400 - U+04FF. -/
def isWordB (c : Nat) : Bool :=
  (48 ≤ c && c ≤ 57) || (65 ≤ c && c ≤ 90) || (97 ≤ c && c ≤ 122) ||
  c == 95 || (0x400 ≤ c && c ≤ 0x4FF)

/-- The character class kept by the word-splitting regex of the normalizer,
whose pattern strips every run of characters outside word chars and the
U+0400 - U+04FF block. -/
def keepB (c : Nat) : Bool := isWordB c || (0x400 ≤ c && c ≤ 0x4FF)

/-- ASCII decimal digit (regex d on the bot's inputs). -/
def isDigitB (c : Nat) : Bool := 48 ≤ c && c ≤ 57

/-- `str.lower`, modelled on ASCII and the Cyrillic ranges used by the bot
(А-Я, Ё-type letters Ѐ-Џ at U+0400-U+040F, and Ґ), identity elsewhere. -/
def pyLower (c : Nat) : Nat :=
  if 65 ≤ c ∧ c ≤ 90 then c + 32
  else if 0x400 ≤ c ∧ c ≤ 0x40F then c + 0x50
  else if 0x410 ≤ c ∧ c ≤ 0x42F then c + 0x20
  else if c = 0x490 then c + 1
  else c

/-- The chained `str.replace` calls of the normalizer:
і→и, ї→и, є→е, ґ→г (each a single code point). -/
def pyReplace (c : Nat) : Nat :=
  if c = 0x456 then 0x438
  else if c = 0x457 then 0x438
  else if c = 0x454 then 0x435
  else if c = 0x491 then 0x433
  else c

/-- Code points of a Lean string literal; used to write the concrete texts and
keywords of the source. -/
def strC (s : String) : List Nat := s.data.map Char.toNat

/-- Lowercase a text (`text.lower()`). -/
def lowerL (l : List Nat) : List Nat := l.map pyLower

/-- Worker for `subRuns`: the flag records whether we are inside a run of
`p`-characters that has already emitted its replacement. -/
def subRunsAux (p : Nat → Bool) (r : Nat) : Bool → List Nat → List Nat
  | _, [] => []
  | true, c :: rest =>
    if p c then subRunsAux p r true rest
    else c :: subRunsAux p r false rest
  | false, c :: rest =>
    if p c then r :: subRunsAux p r true rest
    else c :: subRunsAux p r false rest

/-- `re.sub(class+, r, l)`: replace every maximal run of characters satisfying
`p` by the single character `r`. -/
def subRuns (p : Nat → Bool) (r : Nat) (l : List Nat) : List Nat :=
  subRunsAux p r false l

/-- `str.strip()`: drop leading and trailing whitespace. -/
def pyStrip (l : List Nat) : List Nat :=
  List.rdropWhile isSpaceB (List.dropWhile isSpaceB l)

/-- The text normalizer of the extraction core: lowercase, strip, fold the
letter variants і/ї/є/ґ, replace every run outside the kept character class by
a single space, collapse whitespace runs, strip. -/
def norm (l : List Nat) : List Nat :=
  pyStrip (subRuns isSpaceB 32 (subRuns (fun c => !keepB c) 32
    ((pyStrip (l.map pyLower)).map pyReplace)))

/-- The inflectional endings tried by the suffix stemmer, in the order the
code tries them: its literal list stably sorted by length, longest first
(Python `sorted(endings, key=len, reverse=True)`). -/
def stemEndings : List (List Nat) :=
  [strC "ого", strC "ому", strC "ими", strC "ыми", strC "ому", strC "ого",
   strC "ами", strC "ями",
   strC "ой", strC "ый", strC "ий", strC "ас", strC "яс", strC "ое", strC "ее",
   strC "ом", strC "ою", strC "ам", strC "ах", strC "ів", strC "ов", strC "ей",
   strC "ям", strC "ях",
   strC "а", strC "у", strC "ю", strC "о", strC "е", strC "і", strC "и",
   strC "ь", strC "ї"]

/-- The suffix stemmer: words of length at most 3 are returned unchanged;
otherwise the first listed ending that the word ends with and whose removal
leaves at least 3 characters is stripped. -/
def stem (w : List Nat) : List Nat :=
  if w.length ≤ 3 then w
  else
    match stemEndings.find? (fun e => e.isSuffixOf w && 3 ≤ w.length - e.length) with
    | some e => w.take (w.length - e.length)
    | none => w

/-- Split a text at every character satisfying `p`
(`re.split` on a single-character class: empty pieces are kept). -/
def splitOnPred (p : Nat → Bool) : List Nat → List (List Nat)
  | [] => [[]]
  | c :: rest =>
    match splitOnPred p rest with
    | [] => [[]]
    | h :: t => if p c then [] :: h :: t else (c :: h) :: t

/-- `str.split()` with no argument: split on whitespace runs, dropping empty
pieces. -/
def splitWords (l : List Nat) : List (List Nat) :=
  (splitOnPred isSpaceB l).filter (fun w => !w.isEmpty)

/-- Substring test (`pat in text` on Python strings). -/
def occursIn (pat l : List Nat) : Bool :=
  l.tails.any (fun s => pat.isPrefixOf s)

/-- `any(word in text for word in kws)`. -/
def containsAny (kws : List (List Nat)) (l : List Nat) : Bool :=
  kws.any (fun k => occursIn k l)

/-- Worker for `ints`: accumulates the value of the digit run currently being
scanned. -/
def intRunsAux : Option Nat → List Nat → List Nat
  | cur, [] => (match cur with | some v => [v] | none => [])
  | cur, c :: rest =>
    if isDigitB c then intRunsAux (some ((cur.getD 0) * 10 + (c - 48))) rest
    else
      match cur with
      | some v => v :: intRunsAux none rest
      | none => intRunsAux none rest

/-- The `_ints` helper: remove non-breaking spaces, then read every maximal
digit run as an integer (`re.findall` of a digit run, then `int`). -/
def ints (l : List Nat) : List Nat :=
  intRunsAux none (l.filter (fun c => !(c == 160)))

/-- Worker for `extract_numbers`: `prevWord` says whether the previous
character was a word character; `cur` carries the value of the digit run being
scanned together with whether its left boundary was a word boundary. -/
def exNumsAux : Bool → Option (Nat × Bool) → List Nat → List Nat
  | _, cur, [] => (match cur with | some (v, true) => [v] | _ => [])
  | prevWord, cur, c :: rest =>
    if isDigitB c then
      match cur with
      | some (v, ok) => exNumsAux true (some (v * 10 + (c - 48), ok)) rest
      | none => exNumsAux true (some (c - 48, !prevWord)) rest
    else
      match cur with
      | some (v, ok) =>
        (if ok && !isWordB c then [v] else []) ++ exNumsAux (isWordB c) none rest
      | none => exNumsAux (isWordB c) none rest

/-- `extract_numbers`: the integers of the text whose digit runs are delimited
by word boundaries on both sides (regex of a digit run between two word
boundaries). -/
def extract_numbers (l : List Nat) : List Nat := exNumsAux false none l

/-- Decimal digits of a number, as code points. -/
def digitsOf (n : Nat) : List Nat := (Nat.toDigits 10 n).map Char.toNat

/-- An element of a Python list stored in a criteria value: an integer id or a
string tag (the rooms pattern rule can store the literal string LAST). -/
inductive VItem where
  | int (n : Int)
  | str (s : List Nat)
deriving DecidableEq, Repr

/-- A Python value stored under a criteria key: `None`, an int, a bool, a
string, or a list. -/
inductive Val where
  | none
  | int (n : Int)
  | bool (b : Bool)
  | str (s : List Nat)
  | list (xs : List VItem)
deriving DecidableEq, Repr

/-- A Python dict with string keys, as an insertion-ordered association list
(no key occurs twice once built through `dset`). -/
abbrev Dict := List (String × Val)

/-- `d.get(k)`: `some v` when the key is present, `none` when absent. -/
def dget (d : Dict) (k : String) : Option Val :=
  match d.find? (fun p => p.1 == k) with
  | some p => some p.2
  | Option.none => Option.none

/-- `d[k] = v`: replace the value in place when the key is present, append the
binding otherwise (Python dict update keeps first-insertion order). -/
def dset (d : Dict) (k : String) (v : Val) : Dict :=
  match d with
  | [] => [(k, v)]
  | p :: rest => if p.1 == k then (p.1, v) :: rest else p :: dset rest k v

/-- `d.update(u)`: set every binding of `u` in order. -/
def dupdate (d u : Dict) : Dict :=
  u.foldl (fun a p => dset a p.1 p.2) d

/-- Python truthiness of a value. -/
def truthy : Val → Bool
  | .none => false
  | .int n => !(n == 0)
  | .bool b => b
  | .str s => !s.isEmpty
  | .list xs => !xs.isEmpty

/-- Truthiness of `d.get(k)` (a missing key reads as `None`). -/
def truthyO : Option Val → Bool
  | Option.none => false
  | some v => truthy v

/-- Lookup in an association list with list-of-code-points keys. -/
def lookupL {α : Type} (t : List (List Nat × α)) (k : List Nat) : Option α :=
  (t.find? (fun p => p.1 == k)).map (fun p => p.2)

/-- Lookup in an association list with string keys. -/
def lookupS {α : Type} (t : List (String × α)) (k : String) : Option α :=
  (t.find? (fun p => p.1 == k)).map (fun p => p.2)

/-- The `value_list` column of a filter pattern rule: an integer or the
literal string LAST. -/
inductive PatListVal where
  | int (n : Int)
  | last
deriving DecidableEq, Repr

/-- One row of the externally configured filter pattern rules. -/
structure Pattern where
  ptype : String
  ptext : List Nat
  pmin : Option Int
  pmax : Option Int
  plist : Option PatListVal
deriving Repr

/-- The lookup tables loaded from the external config source: location synonym
tables, condition tables, filter pattern rules, and section keywords.  For the
condition synonym sets (Python `set`s with unspecified iteration order) a list
in some fixed order stands in. -/
structure Tables where
  streetSyn : List (List Nat × Nat)
  microSyn : List (List Nat × Nat)
  distSyn : List (List Nat × Nat)
  condByLabel : List (List Nat × List (List Nat))
  condSynToLabel : List (List Nat × List Nat)
  condIdByLabel : List (List Nat × Nat)
  filterPatterns : List (String × List Pattern)
  sectionKeywords : List (List Nat × List Nat)

/-- All lookup tables empty (fresh or failed reload). -/
def emptyTables : Tables :=
  { streetSyn := [], microSyn := [], distSyn := [], condByLabel := [],
    condSynToLabel := [], condIdByLabel := [], filterPatterns := [],
    sectionKeywords := [] }

/-- A list of integer ids as a stored criteria value. -/
def natsIntVal (l : List Nat) : Val :=
  Val.list (l.map (fun n => VItem.int (Int.ofNat n)))

/-- `min` of a nonempty Python list (0 for the empty list, never used there). -/
def listMin : List Nat → Nat
  | [] => 0
  | n :: ns => ns.foldl Nat.min n

/-- `max` of a nonempty Python list (0 for the empty list, never used there). -/
def listMax : List Nat → Nat
  | [] => 0
  | n :: ns => ns.foldl Nat.max n

/-- All split positions of a text: pairs of the character just before the
position (`none` at the start) and the suffix from the position on.  Used to
model unanchored `re.search`. -/
def splits : Option Nat → List Nat → List (Option Nat × List Nat)
  | prev, [] => [(prev, [])]
  | prev, c :: rest => (prev, c :: rest) :: splits (some c) rest

/-- A word boundary holds before the (word) character that follows. -/
def nonWordBefore : Option Nat → Bool
  | Option.none => true
  | some c => !isWordB c

/-- A word boundary holds after the (word) character just read. -/
def nonWordAfter : List Nat → Bool
  | [] => true
  | c :: _ => !isWordB c

/-- The regex dot: any character but a newline. -/
def anyDot (c : Nat) : Bool := !(c == 10)

/-- A bounded gap of 0..k arbitrary non-newline characters followed by a
position where `f` matches. -/
def gapSearch (k : Nat) (f : List Nat → Bool) (s : List Nat) : Bool :=
  (List.range (k + 1)).any (fun g =>
    decide (g ≤ s.length) && (s.take g).all anyDot && f (s.drop g))

/-- Search for a standalone number (word boundaries on both sides) followed
within a gap of at most 20 characters by a keyword position accepted by
`kwAt`: the shape of the rooms and floor proximity regexes. -/
def searchNumThenKw (num : Nat) (kwAt : List Nat → Bool) (l : List Nat) : Bool :=
  (splits none l).any (fun pr =>
    nonWordBefore pr.1 && (digitsOf num).isPrefixOf pr.2 &&
    nonWordAfter (pr.2.drop (digitsOf num).length) &&
    gapSearch 20 kwAt (pr.2.drop (digitsOf num).length))

/-- The rooms keyword alternatives of the proximity regex; the single letter
alternative carries its own trailing word boundary. -/
def roomsKwAt (s : List Nat) : Bool :=
  (strC "кімнат").isPrefixOf s || (strC "комнат").isPrefixOf s ||
  (strC "кімн").isPrefixOf s || (strC "комн").isPrefixOf s ||
  ((strC "к").isPrefixOf s && nonWordAfter (s.drop 1))

/-- The floor keyword alternatives of the proximity regex. -/
def floorKwAt (s : List Nat) : Bool :=
  (strC "етаж").isPrefixOf s || (strC "этаж").isPrefixOf s ||
  (strC "пов").isPrefixOf s

/-- Ordinal endings that disqualify a number as a rooms count. -/
def roomOrdSuffixes : List (List Nat) :=
  [strC "й", strC "я", strC "і", strC "ий", strC "ій", strC "ый", strC "ой",
   strC "ая", strC "яя", strC "є", strC "ої", strC "го", strC "му"]

/-- Search for the number written as an ordinal (number, hyphen, ordinal
ending, word boundary). -/
def searchNumOrdinal (num : Nat) (l : List Nat) : Bool :=
  (splits none l).any (fun pr =>
    nonWordBefore pr.1 && ((digitsOf num) ++ [45]).isPrefixOf pr.2 &&
    roomOrdSuffixes.any (fun suf =>
      suf.isPrefixOf (pr.2.drop ((digitsOf num).length + 1)) &&
      nonWordAfter (pr.2.drop ((digitsOf num).length + 1 + suf.length))))

/-- Numeric value of a digit run. -/
def valOfDigits (ds : List Nat) : Nat := ds.foldl (fun a c => a * 10 + (c - 48)) 0

/-- Match the floor range pattern (digits, optional spaces, hyphen, optional
spaces, digits) at the start of a suffix. -/
def floorRangeAt (s : List Nat) : Option (Nat × Nat) :=
  let d1 := s.takeWhile isDigitB
  if d1.isEmpty then Option.none
  else
    match (s.drop d1.length).dropWhile isSpaceB with
    | 45 :: s2 =>
      let d2 := (s2.dropWhile isSpaceB).takeWhile isDigitB
      if d2.isEmpty then Option.none else some (valOfDigits d1, valOfDigits d2)
    | _ => Option.none

/-- Leftmost match of the floor range pattern in a text, with the two captured
numbers. -/
def findFloorRange : List Nat → Option (Nat × Nat)
  | [] => Option.none
  | c :: rest =>
    match floorRangeAt (c :: rest) with
    | some p => some p
    | Option.none => findFloorRange rest

/-- Search for one of the keywords directly followed (after optional spaces)
by the given number: the shape of the local min/max context regexes of the
area branch. -/
def searchKwThenNum (kws : List (List Nat)) (num : Nat) (l : List Nat) : Bool :=
  l.tails.any (fun s => kws.any (fun kw =>
    kw.isPrefixOf s && (digitsOf num).isPrefixOf ((s.drop kw.length).dropWhile isSpaceB)))

/-- The to/maximum keywords of the numeric branches. -/
def maxWords : List (List Nat) :=
  [strC "до", strC "максимум", strC "не більше", strC "не больше", strC "макс"]

/-- The from/minimum keywords of the numeric branches. -/
def minWords : List (List Nat) :=
  [strC "від", strC "от", strC "мінімум", strC "минимум", strC "не менше",
   strC "не меньше", strC "мін", strC "мин"]

/-- The floor words that veto the rooms fallback. -/
def floorVetoWords : List (List Nat) := [strC "етаж", strC "этаж", strC "пов"]

/-- The range words of the rooms fallback. -/
def fromToWords : List (List Nat) := [strC "від", strC "от", strC "до"]

/-- Keywords of a pattern rule: its trigger text split on commas, each piece
stripped and lowercased, empty pieces dropped. -/
def patKeywords (p : Pattern) : List (List Nat) :=
  ((splitOnPred (fun c => c == 44) p.ptext).map pyStrip).filterMap
    (fun kw => if kw.isEmpty then Option.none else some (lowerL kw))

/-- Whether a word/phrase/special pattern rule matches the answer (a skip rule
is handled separately and an unknown type never matches). -/
def ruleFires (p : Pattern) (answer : List Nat) : Bool :=
  if p.ptype == "word" then
    (patKeywords p).any (fun kw => (splitWords (norm answer)).contains (norm kw))
  else if p.ptype == "phrase" then
    (patKeywords p).any (fun kw => occursIn kw (lowerL answer))
  else if p.ptype == "special" then
    (patKeywords p).any (fun kw => occursIn kw (lowerL answer))
  else false

/-- The update synthesized from a matched pattern rule, per slot key. -/
def ruleResult (key : String) (p : Pattern) : Dict :=
  if key == "rooms" && p.plist.isSome then
    match p.plist with
    | some (.int n) => [("rooms_in", Val.list [VItem.int n])]
    | some .last => [("rooms_in", Val.list [VItem.str (strC "LAST")])]
    | Option.none => []
  else if key == "floor" then
    if p.plist == some PatListVal.last then [("floor_only_last", Val.bool true)]
    else if p.pmin.isSome || p.pmax.isSome then
      (match p.pmin with | some n => [("floor_min", Val.int n)] | Option.none => []) ++
      (match p.pmax with | some n => [("floor_max", Val.int n)] | Option.none => [])
    else []
  else if key == "area" then
    (match p.pmin with | some n => [("area_min", Val.int n)] | Option.none => []) ++
    (match p.pmax with | some n => [("area_max", Val.int n)] | Option.none => [])
  else if key == "price" then
    (match p.pmin with | some n => [("price_min", Val.int n)] | Option.none => []) ++
    (match p.pmax with | some n => [("price_max", Val.int n)] | Option.none => [])
  else []

/-- The rule loop of the pattern matcher: a skip rule whose keyword occurs in
the lowercased answer returns the explicit empty update; the first other rule
that fires returns its synthesized update. -/
def patLoop (key : String) (answer : List Nat) : List Pattern → Option Dict
  | [] => Option.none
  | p :: rest =>
    if p.ptype == "skip" then
      if (patKeywords p).any (fun kw => occursIn kw (lowerL answer)) then some []
      else patLoop key answer rest
    else if ruleFires p answer then some (ruleResult key p)
    else patLoop key answer rest

/-- The pattern matcher: `none` when the slot has no configured rules or no
rule matches, `some update` (possibly the explicit empty update) otherwise. -/
def apply_pattern_match (T : Tables) (key : String) (answer : List Nat) :
    Option Dict :=
  match lookupS T.filterPatterns key with
  | Option.none => Option.none
  | some ps => patLoop key answer ps

/-- The condition label matcher: for each configured label, the first of its
synonyms that occurs as a space-delimited token of the normalized text selects
the label (resolved through the synonym-to-label table with Python `or`
semantics); matched labels are collected without duplicates. -/
def match_condition_labels (T : Tables) (text : List Nat) : List (List Nat) :=
  let tokens := strC " " ++ norm text ++ strC " "
  T.condByLabel.foldl (fun acc entry =>
    match entry.2.find? (fun syn => occursIn (strC " " ++ syn ++ strC " ") tokens) with
    | some syn =>
      let viaSyn := (lookupL T.condSynToLabel syn).getD []
      let label := if !viaSyn.isEmpty then viaSyn
                   else (lookupL T.condSynToLabel entry.1).getD []
      if !label.isEmpty && !(acc.contains label) then acc ++ [label] else acc
    | Option.none => acc) []

/-- The section keyword matcher: the first normalized word whose stem is a
configured section keyword yields that section tag. -/
def detect_section (T : Tables) (text : List Nat) : Option (List Nat) :=
  (splitWords (norm text)).findSome? (fun w => lookupL T.sectionKeywords (stem w))

/-- Ordinal endings recognized by the location part splitter. -/
def locOrdSuffixes : List (List Nat) :=
  [strC "й", strC "и", strC "ий", strC "ый", strC "і"]

/-- A part that is purely an ordinal token: digits, optional hyphen, one of
the location ordinal endings, end of string (match is case-insensitive, so it
is tested on the lowercased part). -/
def isOrdinalToken (part : List Nat) : Bool :=
  let lp := lowerL part
  let ds := lp.takeWhile isDigitB
  !ds.isEmpty &&
    (let rest := lp.drop ds.length
     let rest2 := if rest.head? == some 45 then rest.drop 1 else rest
     locOrdSuffixes.any (fun suf => rest2 == suf))

/-- The tail of the base-name pattern: at least one whitespace character, a
digit run, an optional hyphen and a location ordinal ending closing the
string. -/
def tailNumOrdMatch (s : List Nat) : Bool :=
  let sp := s.takeWhile isSpaceB
  !sp.isEmpty &&
    (let r1 := s.drop sp.length
     let ds := r1.takeWhile isDigitB
     !ds.isEmpty &&
       (let r2 := lowerL (r1.drop ds.length)
        let r3 := if r2.head? == some 45 then r2.drop 1 else r2
        locOrdSuffixes.any (fun suf => r3 == suf)))

/-- Worker for the lazy first group of the base-name pattern: the shortest
nonempty newline-free prefix whose remainder matches `tailNumOrdMatch`. -/
def baseNameAux (acc : List Nat) : List Nat → Option (List Nat)
  | [] => Option.none
  | c :: rest =>
    if c == 10 then Option.none
    else if tailNumOrdMatch rest then some (acc ++ [c])
    else baseNameAux (acc ++ [c]) rest

/-- The base name captured from a part ending in a trailing ordinal number,
if the part matches the base-name pattern. -/
def baseNameOf (part : List Nat) : Option (List Nat) := baseNameAux [] part

/-- The parts of a location text: split on commas and semicolons, each part
stripped, empty parts dropped. -/
def splitParts (text : List Nat) : List (List Nat) :=
  ((splitOnPred (fun c => c == 59 || c == 44) text).map pyStrip).filter
    (fun p => !p.isEmpty)

/-- The ordinal-merging pass over the parts: a purely ordinal part is glued to
the last remembered base name; any other part is passed through and updates
the remembered base name (its captured base when the part ends in an ordinal
number, the whole part otherwise). -/
def enhanceAux : Option (List Nat) → List (List Nat) → List (List Nat)
  | _, [] => []
  | lastBase, part :: rest =>
    if isOrdinalToken (pyStrip part) then
      match lastBase with
      | some base => (base ++ strC " " ++ part) :: enhanceAux lastBase rest
      | Option.none => part :: enhanceAux lastBase rest
    else
      let nb := match baseNameOf part with
        | some h => h
        | Option.none => part
      part :: enhanceAux (some nb) rest

/-- Append an id unless already present (the membership-guarded `append` of
the location matcher). -/
def addNew (acc : List Nat) (x : Nat) : List Nat :=
  if acc.contains x then acc else acc ++ [x]

/-- Union a list of ids into an accumulator, guarding each against
duplicates. -/
def addAll (acc xs : List Nat) : List Nat := xs.foldl addNew acc

/-- Accumulated location ids of one matching pass. -/
structure LocRes where
  district : List Nat
  microarea : List Nat
  street : List Nat
deriving Repr, DecidableEq

/-- The per-word stemming pass of `match_single_location`. -/
def matchWordsLoc (T : Tables) (normalized : List Nat) : LocRes :=
  (splitWords normalized).foldl (fun acc word =>
    let stemmed := stem word
    let acc1 := match T.streetSyn.find? (fun p => stem p.1 == stemmed) with
      | some p => { acc with street := addNew acc.street p.2 }
      | Option.none => acc
    let acc2 := match T.microSyn.find? (fun p => stem p.1 == stemmed) with
      | some p => { acc1 with microarea := addNew acc1.microarea p.2 }
      | Option.none => acc1
    match T.distSyn.find? (fun p => stem p.1 == stemmed) with
    | some p => { acc2 with district := addNew acc2.district p.2 }
    | Option.none => acc2) { district := [], microarea := [], street := [] }

/-- Matching one part against the location tables: an exact normalized match
against the street table short-circuits; otherwise each normalized word is
stem-matched against the street, micro-area and district tables in that order,
collecting non-duplicate hits (the first synonym whose stem agrees wins per
table and word). -/
def match_single_location (T : Tables) (text : List Nat) : LocRes :=
  let normalized := norm text
  match lookupL T.streetSyn normalized with
  | some sid =>
    if !(sid == 0) then { district := [], microarea := [], street := [sid] }
    else matchWordsLoc T normalized
  | Option.none => matchWordsLoc T normalized

/-- The location matcher: split into parts, glue trailing ordinal parts to
their base names, match each part, union the hits; if any street id was found
the result is street-only with `explicit_street` set and the broader location
keys cleared.  `combinedLoc` is the union pass over the parts. -/
def combinedLoc (T : Tables) (text : List Nat) : LocRes :=
  (enhanceAux Option.none (splitParts text)).foldl (fun acc part =>
    let pr := match_single_location T part
    { district := addAll acc.district pr.district,
      microarea := addAll acc.microarea pr.microarea,
      street := addAll acc.street pr.street }) (LocRes.mk [] [] [])

def match_locations (T : Tables) (text : List Nat) : Dict :=
  let combined := combinedLoc T text
  if !combined.street.isEmpty then
    [("street_id", natsIntVal combined.street), ("explicit_street", Val.bool true),
     ("district_id", Val.list []), ("microarea_id", Val.list [])]
  else
    [("district_id", natsIntVal combined.district),
     ("microarea_id", natsIntVal combined.microarea),
     ("street_id", natsIntVal combined.street)]

/-- The remainder of the floor branch after the explicit range pattern: filter
the 1..50 integers to those near a floor keyword (falling back to a lone
number), then resolve a single number with the directional keywords and a pair
by min/max. -/
def floorHeuristic (answer lower_answer : List Nat) : Dict :=
  let numbers := (ints answer).filter (fun x => 1 ≤ x && x ≤ 50)
  let nearKw := numbers.filter (fun num => searchNumThenKw num floorKwAt lower_answer)
  let filtered_floors := if nearKw.isEmpty && numbers.length == 1 then numbers else nearKw
  match filtered_floors with
  | [] => []
  | [num] =>
    if containsAny maxWords lower_answer then
      [("floor_min", Val.int 1), ("floor_max", Val.int num)]
    else if containsAny minWords lower_answer then
      [("floor_min", Val.int num), ("floor_max", Val.int 50)]
    else
      [("floor_min", Val.int num), ("floor_max", Val.int num)]
  | _ =>
    [("floor_min", Val.int (listMin filtered_floors)),
     ("floor_max", Val.int (listMax filtered_floors))]

/-- The filter extractor `parse_to_filters(key, answer)`: pattern rules first,
then the slot-specific heuristics of the price, rooms, area, floor,
floors-total, condition, section and district branches. -/
def parse_to_filters (T : Tables) (key : String) (answer : List Nat) : Dict :=
  let lower_answer := lowerL answer
  match apply_pattern_match T key answer with
  | some pattern_result => pattern_result
  | Option.none =>
    if key == "price" || key == "budget" then
      let numbers := (ints answer).filter (fun x => 1000 < x)
      match numbers with
      | [] => []
      | [num] =>
        if containsAny maxWords lower_answer then
          [("price_max", Val.int num), ("price_min", Val.none)]
        else if containsAny minWords lower_answer then
          [("price_min", Val.int num), ("price_max", Val.none)]
        else
          [("price_max", Val.int num), ("price_min", Val.none)]
      | _ =>
        [("price_min", Val.int (listMin numbers)),
         ("price_max", Val.int (listMax numbers))]
    else if key == "rooms" then
      let numbers := (ints answer).filter (fun x => 0 < x && x < 8)
      let filtered_rooms := numbers.filter (fun num =>
        !(searchNumOrdinal num lower_answer) &&
        searchNumThenKw num roomsKwAt lower_answer)
      if !filtered_rooms.isEmpty then [("rooms_in", natsIntVal filtered_rooms)]
      else if !numbers.isEmpty && !(containsAny floorVetoWords lower_answer) then
        if numbers.length == 2 && containsAny fromToWords lower_answer then
          [("rooms_in", natsIntVal
            (List.range' (listMin numbers) (listMax numbers - listMin numbers + 1)))]
        else [("rooms_in", natsIntVal numbers)]
      else []
    else if key == "area" then
      let numbers := (ints answer).filter (fun x => 15 ≤ x && x ≤ 500)
      match numbers with
      | [] => []
      | [num] =>
        if searchKwThenNum minWords num lower_answer then
          [("area_min", Val.int num), ("area_max", Val.none)]
        else if searchKwThenNum maxWords num lower_answer then
          [("area_max", Val.int num), ("area_min", Val.none)]
        else
          [("area_min", Val.int num), ("area_max", Val.none)]
      | _ =>
        [("area_min", Val.int (listMin numbers)),
         ("area_max", Val.int (listMax numbers))]
    else if key == "floor" then
      match findFloorRange lower_answer with
      | some (mn, mx) =>
        if 1 ≤ mn && mn ≤ 50 && 1 ≤ mx && mx ≤ 50 then
          [("floor_min", Val.int mn), ("floor_max", Val.int mx)]
        else floorHeuristic answer lower_answer
      | Option.none => floorHeuristic answer lower_answer
    else if key == "floors_total" || key == "building_floors" then
      let numbers := (ints answer).filter (fun x => 1 ≤ x && x ≤ 30)
      match numbers with
      | [] => []
      | [num] =>
        if containsAny maxWords lower_answer then
          [("floors_total_min", Val.int 1), ("floors_total_max", Val.int num)]
        else if containsAny minWords lower_answer then
          [("floors_total_min", Val.int num), ("floors_total_max", Val.int 30)]
        else
          [("floors_total_min", Val.int num), ("floors_total_max", Val.int num)]
      | _ =>
        [("floors_total_min", Val.int (listMin numbers)),
         ("floors_total_max", Val.int (listMax numbers))]
    else if key == "condition" || key == "state" then
      let labels := match_condition_labels T answer
      let condition_ids := labels.filterMap (fun lb => lookupL T.condIdByLabel lb)
      if !condition_ids.isEmpty then [("condition_in", natsIntVal condition_ids)]
      else []
    else if key == "section" then
      match detect_section T answer with
      | some s => [("section", Val.str s)]
      | Option.none => []
    else if key == "district" then
      match_locations T answer
    else []

/-- The slot keys tried by the whole-message extractor, in order. -/
def allFilterKeys : List String :=
  ["district", "price", "area", "condition", "rooms", "floor", "section"]

/-- `parse_all_filters`: run the extractor for every slot key over the whole
message and overlay each non-empty partial update onto the accumulated
result. -/
def parse_all_filters (T : Tables) (text : List Nat) : Dict :=
  allFilterKeys.foldl (fun result key =>
    let parsed := parse_to_filters T key text
    if !parsed.isEmpty then dupdate result parsed else result) []

/-- State of the numeric-only fallback loop: the update built so far and the
three still-needed flags. -/
structure FBState where
  r : Dict
  needsPrice : Bool
  needsArea : Bool
  needsRooms : Bool

/-- One step of the numeric-only fallback: a value up to 7 is appended to the
rooms list while rooms are needed; a value in 20..500 fills `area_min` then
`area_max` and closes the area category; a value above 500 fills the price
category once (`price_max` when no `price_min` is in the update yet, the
reshuffling branch otherwise) and closes it. -/
def fbStep (st : FBState) (num : Nat) : FBState :=
  if num ≤ 7 && st.needsRooms then
    let cur := match dget st.r "rooms_in" with
      | some (Val.list xs) => xs
      | _ => []
    { st with r := dset st.r "rooms_in" (Val.list (cur ++ [VItem.int num])) }
  else if 20 ≤ num && num ≤ 500 && st.needsArea then
    if (dget st.r "area_min").isNone then
      { st with r := dset st.r "area_min" (Val.int num), needsArea := false }
    else
      { st with r := dset st.r "area_max" (Val.int num), needsArea := false }
  else if 500 < num && st.needsPrice then
    if (dget st.r "price_min").isNone then
      { st with r := dset st.r "price_max" (Val.int num), needsPrice := false }
    else
      (if (match dget st.r "price_max" with
           | some (Val.int m) => m
           | _ => 0) < (num : Int) then
        { st with
          r := dset (dset st.r "price_min"
                 ((dget st.r "price_max").getD (Val.int 0))) "price_max" (Val.int num),
          needsPrice := false }
      else
        { st with r := dset st.r "price_min" (Val.int num), needsPrice := false })
  else st

/-- The numeric-only fallback loop over the extracted integers in ascending
order (Python `sorted`; on naturals with a total order any stable sort
coincides, so a structural insertion sort stands in for it). -/
def fallbackLoop (numbers : List Nat) (existing : Dict) : Dict :=
  let st0 : FBState :=
    { r := [],
      needsPrice := (dget existing "price_max").isNone && (dget existing "price_min").isNone,
      needsArea := (dget existing "area_min").isNone && (dget existing "area_max").isNone,
      needsRooms := (dget existing "rooms_in").isNone }
  ((List.insertionSort (fun a b => a ≤ b) numbers).foldl fbStep st0).r

/-- `smart_parse_filters`: the whole-message extractor wins when it returns a
non-empty update; otherwise, when the message holds integers, the numeric-only
fallback distributes them over rooms, area and price. -/
def smart_parse_filters (T : Tables) (text : List Nat) (existing : Dict) : Dict :=
  let parsed_all := parse_all_filters T text
  if !parsed_all.isEmpty then parsed_all
  else
    let numbers := extract_numbers text
    if numbers.isEmpty then [] else fallbackLoop numbers existing

/-- The four location-slot keys handled specially by the criteria merge. -/
def locKeys : List String :=
  ["district_id", "microarea_id", "street_id", "explicit_street"]

/-- Worker for `pyDedup`: `seen` holds the keys already emitted. -/
def pyDedupAux (seen : List VItem) : List VItem → List VItem
  | [] => []
  | a :: rest =>
    if seen.contains a then pyDedupAux seen rest
    else a :: pyDedupAux (seen ++ [a]) rest

/-- `list(dict.fromkeys(xs))`: deduplicate keeping first occurrences. -/
def pyDedup (l : List VItem) : List VItem := pyDedupAux [] l

/-- Deduplicate a stored list value (other value shapes pass through
unchanged). -/
def dedupVal : Val → Val
  | Val.list xs => Val.list (pyDedup xs)
  | v => v

/-- Overlay every non-location binding of the update onto the result. -/
def overlayExceptLoc (d u : Dict) : Dict :=
  u.foldl (fun a p => if locKeys.contains p.1 then a else dset a p.1 p.2) d

/-- The criteria merge `apply_location_filters(existing, update)`: when the
update carries any truthy location key, all four location keys are removed
from the existing criteria and only the most specific supplied location
(street over micro-area over district) is re-added, deduplicated, street also
setting `explicit_street`; every non-location binding of the update is then
overlaid.  Without location keys in the update it is a plain overlay of the
non-location bindings. -/
def apply_location_filters (filters_data new_filters : Dict) : Dict :=
  let has_street := truthyO (dget new_filters "street_id")
  let has_microarea := truthyO (dget new_filters "microarea_id")
  let has_district := truthyO (dget new_filters "district_id")
  if has_street || has_microarea || has_district then
    let result := filters_data.filter (fun p => !(locKeys.contains p.1))
    let result :=
      if has_street then
        dset (dset result "street_id" (dedupVal ((dget new_filters "street_id").getD Val.none)))
          "explicit_street" (Val.bool true)
      else if has_microarea then
        dset result "microarea_id" (dedupVal ((dget new_filters "microarea_id").getD Val.none))
      else
        dset result "district_id" (dedupVal ((dget new_filters "district_id").getD Val.none))
    overlayExceptLoc result new_filters
  else
    overlayExceptLoc filters_data new_filters

/-- The slot-to-criteria-keys mapping of the question flow. -/
def keyMapping (table_key : String) : List String :=
  if table_key == "name" then []
  else if table_key == "district" then ["district_id", "microarea_id", "street_id"]
  else if table_key == "rooms" then ["rooms_in"]
  else if table_key == "state" then ["condition_in"]
  else if table_key == "budget" then ["price_min", "price_max"]
  else if table_key == "section" then ["section"]
  else if table_key == "area" then ["area_min", "area_max"]
  else if table_key == "floor" then ["floor_min", "floor_max"]
  else []

/-- The configured question rows: slot key and question text, in configured
order. -/
abbrev Questions := List (String × String)

/-- `get_missing_filters`: the configured slots (name excluded, unmapped slots
skipped) none of whose mapped criteria keys holds a truthy value, in
configured order. -/
def get_missing_filters (qs : Questions) (filters : Dict) : List String :=
  qs.filterMap (fun q =>
    if q.1 == "name" then Option.none
    else if (keyMapping q.1).isEmpty then Option.none
    else if (keyMapping q.1).any (fun fk => truthyO (dget filters fk)) then Option.none
    else some q.1)

/-- `get_next_question`: `None` when no slot is missing, else the first
configured question whose slot is missing and not yet asked. -/
def get_next_question (qs : Questions) (filters : Dict) (asked : List String) :
    Option (String × String) :=
  let missing := get_missing_filters qs filters
  if missing.isEmpty then Option.none
  else qs.find? (fun q => missing.contains q.1 && !(asked.contains q.1))

/-- `is_complete`: no slot is missing. -/
def is_complete (qs : Questions) (filters : Dict) : Bool :=
  (get_missing_filters qs filters).length == 0

/-- The observable outcome of the HTTP round trip of a listings request: the
request raised (network error, timeout), or a response arrived with a status,
a body text, and — when the body parsed as a JSON object — its fields. -/
inductive FetchOutcome where
  | failure (msg : List Nat)
  | response (status : Nat) (text : List Nat) (json : Option Dict)

/-- Python `a or b`. -/
def pyOr (a b : Val) : Val := if truthy a then a else b

/-- Python `len` on the value shapes that can reach it here. -/
def pyLenV : Val → Int
  | Val.list xs => xs.length
  | Val.str s => s.length
  | _ => 0

/-- `raw.get(k)`: a missing key reads as `None`. -/
def dgetD (d : Dict) (k : String) : Val := (dget d k).getD Val.none

/-- The outbound payload of `fetch_listings`: the criteria with every falsy
value stripped (the API key and the limit/offset/sort defaults are then added
by the caller-side config, not modelled further). -/
def buildPayload (filters : Dict) : Dict :=
  filters.filter (fun p => truthy p.2)

/-- `fetch_listings`: build the outbound payload (falsy values stripped,
paging and sort defaults added) and normalize the response; every failure
shape (exception, non-200 status, unparseable body) degrades to the empty
result set. -/
def fetch_listings (filters : Dict) (outcome : FetchOutcome) : Dict :=
  let _payload := buildPayload filters
  match outcome with
  | .failure msg =>
    [("data", Val.list []), ("total", Val.int 0), ("status", Val.none),
     ("message", Val.str msg)]
  | .response status text json =>
    if !(status == 200) then
      [("data", Val.list []), ("total", Val.int 0), ("status", Val.none),
       ("message", Val.str text)]
    else
      match json with
      | Option.none =>
        [("data", Val.list []), ("total", Val.int 0), ("status", Val.none),
         ("message", Val.str text)]
      | some raw =>
        let items := pyOr (dgetD raw "items") (pyOr (dgetD raw "data") (Val.list []))
        let total := pyOr (dgetD raw "count") (pyOr (dgetD raw "total") (Val.int (pyLenV items)))
        [("data", items),
         ("total", match total with
                   | Val.int n => Val.int n
                   | Val.bool b => Val.bool b
                   | _ => Val.int (pyLenV items)),
         ("status", dgetD raw "status"),
         ("message", dgetD raw "message")]


theorem dget_cons (p : String × Val) (d : Dict) (k : String) :
    dget (p :: d) k = if p.1 == k then some p.2 else dget d k := by
  rw [dget, List.find?_cons]
  cases h : p.1 == k
  · simp only [h, Bool.false_eq_true, if_false]
    rfl
  · simp [h]

theorem dget_dset_self (d : Dict) (k : String) (v : Val) :
    dget (dset d k v) k = some v := by
  induction d with
  | nil => simp [dset, dget_cons]
  | cons p d ih =>
    rw [dset]
    cases h : p.1 == k
    · simp only [Bool.false_eq_true, if_false]
      rw [dget_cons, if_neg (by simp [h]), ih]
    · simp only [if_true]
      rw [dget_cons]
      simp [h]

theorem dget_dset_ne (d : Dict) (k k' : String) (v : Val) (hne : k' ≠ k) :
    dget (dset d k v) k' = dget d k' := by
  induction d with
  | nil =>
    rw [dset, dget_cons, if_neg (by simpa using fun h => hne (eq_of_beq h).symm)]
  | cons p d ih =>
    rw [dset]
    cases h : p.1 == k
    · simp only [Bool.false_eq_true, if_false]
      rw [dget_cons, dget_cons, ih]
    · simp only [if_true]
      have hpk : p.1 = k := eq_of_beq h
      have h1 : (p.1 == k') = false := by
        subst hpk
        exact beq_eq_false_iff_ne.mpr (fun hh => hne hh.symm)
      rw [dget_cons, dget_cons]
      simp [h1]

theorem dget_filter_none (d : Dict) (q : String → Bool) (k : String)
    (hq : q k = false) : dget (d.filter (fun p => q p.1)) k = Option.none := by
  induction d with
  | nil => simp [dget]
  | cons p d ih =>
    rw [List.filter_cons]
    by_cases hp : q p.1 = true
    · simp only [hp, if_true]
      rw [dget_cons]
      have hbe : (p.1 == k) = false := by
        cases h : p.1 == k
        · rfl
        · rcases eq_of_beq h with rfl
          rw [hp] at hq
          exact absurd hq (by simp)
      simp [hbe, ih]
    · simp only [Bool.not_eq_true] at hp
      simp only [hp, Bool.false_eq_true, if_false]
      exact ih

theorem dget_overlayExceptLoc (d u : Dict) (k : String)
    (hk : locKeys.contains k = true) :
    dget (overlayExceptLoc d u) k = dget d k := by
  induction u generalizing d with
  | nil => rfl
  | cons p u ih =>
    simp only [overlayExceptLoc, List.foldl_cons]
    by_cases hp : locKeys.contains p.1 = true
    · simp only [hp, if_true]
      exact ih d
    · simp only [Bool.not_eq_true] at hp
      simp only [hp, Bool.false_eq_true, if_false]
      rw [show (List.foldl (fun a q => if locKeys.contains q.1 then a else dset a q.1 q.2)
            (dset d p.1 p.2) u) = overlayExceptLoc (dset d p.1 p.2) u from rfl, ih]
      refine dget_dset_ne _ _ _ _ (fun h => ?_)
      rw [← h, hk] at hp
      cases hp

theorem pyDedupAux_sublist :
    ∀ (l : List VItem) (seen : List VItem), (pyDedupAux seen l).Sublist l := by
  intro l
  induction l with
  | nil => intro seen; exact List.Sublist.refl []
  | cons a rest ih =>
    intro seen
    rw [pyDedupAux]
    by_cases hc : seen.contains a = true
    · rw [if_pos hc]
      exact (ih seen).trans (List.sublist_cons_self a rest)
    · rw [if_neg hc]
      exact List.Sublist.cons₂ a (ih (seen ++ [a]))

theorem pyDedup_sublist (l : List VItem) : (pyDedup l).Sublist l :=
  pyDedupAux_sublist l []

theorem mem_pyDedupAux :
    ∀ (l : List VItem) (seen : List VItem) (x : VItem),
      x ∈ pyDedupAux seen l ↔ x ∈ l ∧ x ∉ seen := by
  intro l
  induction l with
  | nil =>
    intro seen x
    constructor
    · intro hx
      cases hx
    · intro hx
      cases hx.1
  | cons a rest ih =>
    intro seen x
    rw [pyDedupAux]
    by_cases hc : seen.contains a = true
    · rw [if_pos hc]
      rw [ih seen x]
      constructor
      · exact fun h => ⟨List.mem_cons_of_mem _ h.1, h.2⟩
      · intro h
        refine ⟨?_, h.2⟩
        rcases List.mem_cons.mp h.1 with rfl | hx
        · exact absurd (by simpa using hc) h.2
        · exact hx
    · rw [if_neg hc]
      have hna : a ∉ seen := by
        simp only [Bool.not_eq_true] at hc
        simpa using hc
      constructor
      · intro hx
        rcases List.mem_cons.mp hx with rfl | hx
        · exact ⟨List.mem_cons_self _ _, hna⟩
        · rcases (ih (seen ++ [a]) x).mp hx with ⟨h1, h2⟩
          exact ⟨List.mem_cons_of_mem _ h1,
            fun hxs => h2 (List.mem_append_left _ hxs)⟩
      · intro h
        rcases List.mem_cons.mp h.1 with rfl | hx
        · exact List.mem_cons_self _ _
        · by_cases hxa : x = a
          · exact hxa ▸ List.mem_cons_self _ _
          · refine List.mem_cons_of_mem _ ((ih (seen ++ [a]) x).mpr
              ⟨hx, fun hxs => ?_⟩)
            rcases List.mem_append.mp hxs with hxs | hxs
            · exact h.2 hxs
            · exact hxa (by simpa using hxs)

theorem mem_pyDedup (l : List VItem) : ∀ x : VItem, x ∈ pyDedup l ↔ x ∈ l := by
  intro x
  rw [pyDedup, mem_pyDedupAux]
  constructor
  · exact fun h => h.1
  · exact fun h => ⟨h, by simp⟩

theorem pyDedupAux_nodup :
    ∀ (l : List VItem) (seen : List VItem), (pyDedupAux seen l).Nodup := by
  intro l
  induction l with
  | nil => intro seen; exact List.nodup_nil
  | cons a rest ih =>
    intro seen
    rw [pyDedupAux]
    by_cases hc : seen.contains a = true
    · rw [if_pos hc]
      exact ih seen
    · rw [if_neg hc]
      refine List.nodup_cons.mpr ⟨fun hmem => ?_, ih (seen ++ [a])⟩
      exact (mem_pyDedupAux rest (seen ++ [a]) a).mp hmem
        |>.2 (List.mem_append_right _ (List.mem_cons_self _ _))

theorem pyDedup_nodup (l : List VItem) : (pyDedup l).Nodup :=
  pyDedupAux_nodup l []

theorem foldl_min_le_init (ns : List Nat) (n : Nat) : ns.foldl Nat.min n ≤ n := by
  induction ns generalizing n with
  | nil => exact Nat.le_refl n
  | cons b bs ih =>
    exact Nat.le_trans (ih (Nat.min n b)) (Nat.min_le_left n b)

theorem foldl_min_le_mem (ns : List Nat) (n : Nat) :
    ∀ x ∈ ns, ns.foldl Nat.min n ≤ x := by
  induction ns generalizing n with
  | nil => intro x hx; cases hx
  | cons b bs ih =>
    intro x hx
    rcases List.mem_cons.mp hx with rfl | hx
    · exact Nat.le_trans (foldl_min_le_init bs (Nat.min n x)) (Nat.min_le_right n x)
    · exact ih (Nat.min n b) x hx

theorem foldl_min_mem (ns : List Nat) (n : Nat) :
    ns.foldl Nat.min n = n ∨ ns.foldl Nat.min n ∈ ns := by
  induction ns generalizing n with
  | nil => exact Or.inl rfl
  | cons b bs ih =>
    rcases ih (Nat.min n b) with h | h
    · have hc : Nat.min n b = n ∨ Nat.min n b = b := by
        rw [Nat.min_eq_min]
        rcases Nat.le_total n b with hle | hle
        · exact Or.inl (Nat.min_eq_left hle)
        · exact Or.inr (Nat.min_eq_right hle)
      rcases hc with hm | hm
      · exact Or.inl (by rw [List.foldl_cons, h, hm])
      · exact Or.inr (by rw [List.foldl_cons, h, hm]; exact List.mem_cons_self _ _)
    · exact Or.inr (List.mem_cons_of_mem _ h)

theorem foldl_max_init_le (ns : List Nat) (n : Nat) : n ≤ ns.foldl Nat.max n := by
  induction ns generalizing n with
  | nil => exact Nat.le_refl n
  | cons b bs ih =>
    exact Nat.le_trans (Nat.le_max_left n b) (ih (Nat.max n b))

theorem foldl_max_mem_le (ns : List Nat) (n : Nat) :
    ∀ x ∈ ns, x ≤ ns.foldl Nat.max n := by
  induction ns generalizing n with
  | nil => intro x hx; cases hx
  | cons b bs ih =>
    intro x hx
    rcases List.mem_cons.mp hx with rfl | hx
    · exact Nat.le_trans (Nat.le_max_right n x) (foldl_max_init_le bs (Nat.max n x))
    · exact ih (Nat.max n b) x hx

theorem foldl_max_mem (ns : List Nat) (n : Nat) :
    ns.foldl Nat.max n = n ∨ ns.foldl Nat.max n ∈ ns := by
  induction ns generalizing n with
  | nil => exact Or.inl rfl
  | cons b bs ih =>
    rcases ih (Nat.max n b) with h | h
    · have hc : Nat.max n b = n ∨ Nat.max n b = b := by
        rw [Nat.max_eq_max]
        rcases Nat.le_total n b with hle | hle
        · exact Or.inr (Nat.max_eq_right hle)
        · exact Or.inl (Nat.max_eq_left hle)
      rcases hc with hm | hm
      · exact Or.inl (by rw [List.foldl_cons, h, hm])
      · exact Or.inr (by rw [List.foldl_cons, h, hm]; exact List.mem_cons_self _ _)
    · exact Or.inr (List.mem_cons_of_mem _ h)

/-- C10: with zero loaded question rows, every criteria set (the empty one
included) has no missing slots, counts as complete, and yields no next
question. -/
theorem C10_empty_questions_flow (filters : Dict) (asked : List String) :
    get_missing_filters [] filters = []
    ∧ is_complete [] filters = true
    ∧ get_next_question [] filters asked = Option.none :=
  ⟨rfl, rfl, rfl⟩

/-- C7: every failure shape of the listings round trip — a raised request
(network error or timeout), a non-200 response status, or a body that did not
parse as JSON — yields the empty result set `data=[], total=0`; the handler is
a total function of the outcome, so no exception escapes the boundary. -/
theorem C7_fetch_degrades (filters : Dict) (outcome : FetchOutcome)
    (h : (∃ m, outcome = FetchOutcome.failure m)
      ∨ (∃ s t j, outcome = FetchOutcome.response s t j ∧ s ≠ 200)
      ∨ (∃ s t, outcome = FetchOutcome.response s t Option.none)) :
    dget (fetch_listings filters outcome) "data" = some (Val.list [])
    ∧ dget (fetch_listings filters outcome) "total" = some (Val.int 0) := by
  rcases h with ⟨m, rfl⟩ | ⟨s, t, j, rfl, hs⟩ | ⟨s, t, rfl⟩
  · exact ⟨rfl, rfl⟩
  · have : (s == 200) = false := by simpa using hs
    simp only [fetch_listings, this]
    exact ⟨rfl, rfl⟩
  · by_cases hs : s = 200
    · subst hs
      exact ⟨rfl, rfl⟩
    · have : (s == 200) = false := by simpa using hs
      simp only [fetch_listings, this]
      exact ⟨rfl, rfl⟩

/-- Witness for C7 at a concrete failed outcome. -/
theorem C7_fetch_degrades_witness :
    dget (fetch_listings [] (FetchOutcome.failure (strC "timeout"))) "data"
      = some (Val.list [])
    ∧ dget (fetch_listings [] (FetchOutcome.failure (strC "timeout"))) "total"
      = some (Val.int 0) :=
  C7_fetch_degrades [] (FetchOutcome.failure (strC "timeout"))
    (Or.inl ⟨strC "timeout", rfl⟩)

/-- C2: merging an update whose `street_id` is non-empty into criteria that
held a district and/or micro-area leaves district and micro-area absent from
the result, sets `explicit_street`, and stores exactly the update's street
ids, deduplicated with first occurrences kept in order. -/
theorem C2_street_replaces_broader (existing update : Dict) (ids : List VItem)
    (hstreet : dget update "street_id" = some (Val.list ids)) (hids : ids ≠ [])
    (_hheld : truthyO (dget existing "district_id") = true
           ∨ truthyO (dget existing "microarea_id") = true) :
    dget (apply_location_filters existing update) "district_id" = Option.none
    ∧ dget (apply_location_filters existing update) "microarea_id" = Option.none
    ∧ (∃ l, dget (apply_location_filters existing update) "street_id"
          = some (Val.list l)
        ∧ l.Nodup ∧ l.Sublist ids ∧ (∀ x, x ∈ l ↔ x ∈ ids))
    ∧ dget (apply_location_filters existing update) "explicit_street"
        = some (Val.bool true) := by
  clear _hheld
  have hs : truthyO (dget update "street_id") = true := by
    rw [hstreet]
    simp only [truthyO, truthy, Bool.not_eq_true']
    simpa using hids
  have hsv : dedupVal ((dget update "street_id").getD Val.none)
      = Val.list (pyDedup ids) := by
    rw [hstreet]
    rfl
  have happ : apply_location_filters existing update
      = overlayExceptLoc
          (dset (dset (existing.filter (fun p => !(locKeys.contains p.1)))
            "street_id" (dedupVal ((dget update "street_id").getD Val.none)))
            "explicit_street" (Val.bool true)) update := by
    simp only [apply_location_filters, hs, Bool.true_or, if_true]
  rw [happ, hsv]
  refine ⟨?_, ?_, ⟨pyDedup ids, ?_, pyDedup_nodup ids, pyDedup_sublist ids,
    mem_pyDedup ids⟩, ?_⟩
  · rw [dget_overlayExceptLoc _ _ _ (by decide),
      dget_dset_ne _ _ _ _ (by decide), dget_dset_ne _ _ _ _ (by decide),
      dget_filter_none _ (fun s => !(locKeys.contains s)) _ (by decide)]
  · rw [dget_overlayExceptLoc _ _ _ (by decide),
      dget_dset_ne _ _ _ _ (by decide), dget_dset_ne _ _ _ _ (by decide),
      dget_filter_none _ (fun s => !(locKeys.contains s)) _ (by decide)]
  · rw [dget_overlayExceptLoc _ _ _ (by decide),
      dget_dset_ne _ _ _ _ (by decide), dget_dset_self]
  · rw [dget_overlayExceptLoc _ _ _ (by decide), dget_dset_self]

/-- Witness for C2 at a concrete district-holding criteria set and a street
update with a duplicated id. -/
theorem C2_street_replaces_broader_witness :
    dget (apply_location_filters [("district_id", natsIntVal [4])]
        [("street_id", Val.list [VItem.int 7, VItem.int 7, VItem.int 5])])
      "district_id" = Option.none
    ∧ dget (apply_location_filters [("district_id", natsIntVal [4])]
        [("street_id", Val.list [VItem.int 7, VItem.int 7, VItem.int 5])])
      "microarea_id" = Option.none
    ∧ (∃ l, dget (apply_location_filters [("district_id", natsIntVal [4])]
          [("street_id", Val.list [VItem.int 7, VItem.int 7, VItem.int 5])])
          "street_id" = some (Val.list l)
        ∧ l.Nodup ∧ l.Sublist [VItem.int 7, VItem.int 7, VItem.int 5]
        ∧ (∀ x, x ∈ l ↔ x ∈ [VItem.int 7, VItem.int 7, VItem.int 5]))
    ∧ dget (apply_location_filters [("district_id", natsIntVal [4])]
        [("street_id", Val.list [VItem.int 7, VItem.int 7, VItem.int 5])])
      "explicit_street" = some (Val.bool true) :=
  C2_street_replaces_broader [("district_id", natsIntVal [4])]
    [("street_id", Val.list [VItem.int 7, VItem.int 7, VItem.int 5])]
    [VItem.int 7, VItem.int 7, VItem.int 5] rfl (by decide)
    (Or.inl (by decide))

/-- C5: the next-question operation equals the first configured question whose
slot is missing and unasked (`None` when no such slot exists), and any
returned slot is neither in the asked set nor mapped to a criteria key that
already holds a truthy value. -/
theorem C5_next_question_properties (qs : Questions) (filters : Dict)
    (asked : List String) :
    get_next_question qs filters asked
      = qs.find? (fun q => (get_missing_filters qs filters).contains q.1
          && !(asked.contains q.1))
    ∧ (∀ q, get_next_question qs filters asked = some q →
        asked.contains q.1 = false
        ∧ ∀ fk ∈ keyMapping q.1, truthyO (dget filters fk) = false) := by
  have hfind : get_next_question qs filters asked
      = qs.find? (fun q => (get_missing_filters qs filters).contains q.1
          && !(asked.contains q.1)) := by
    simp only [get_next_question]
    by_cases hm : (get_missing_filters qs filters).isEmpty = true
    · rw [if_pos hm]
      have hempty : get_missing_filters qs filters = [] := by
        simpa using hm
      symm
      rw [List.find?_eq_none]
      intro x _
      simp [hempty]
    · rw [if_neg hm]
  refine ⟨hfind, fun q hq => ?_⟩
  rw [hfind] at hq
  have hpred := List.find?_some hq
  rw [Bool.and_eq_true] at hpred
  have hasked : asked.contains q.1 = false := by
    rcases hpred with ⟨_, h2⟩
    simpa using h2
  refine ⟨hasked, ?_⟩
  have hmem : q.1 ∈ get_missing_filters qs filters := by
    have := hpred.1
    simpa [List.contains_iff_exists_mem_beq] using
      (by
        rcases List.contains_iff_exists_mem_beq.mp this with ⟨a, ha, hbeq⟩
        rcases eq_of_beq hbeq with rfl
        exact ha)
  rcases List.mem_filterMap.mp hmem with ⟨p, _, hp⟩
  by_cases h1 : (p.1 == "name") = true
  · rw [if_pos h1] at hp
    cases hp
  · rw [if_neg h1] at hp
    by_cases h2 : (keyMapping p.1).isEmpty = true
    · rw [if_pos h2] at hp
      cases hp
    · rw [if_neg h2] at hp
      by_cases h3 : ((keyMapping p.1).any (fun fk => truthyO (dget filters fk))) = true
      · rw [if_pos h3] at hp
        cases hp
      · rw [if_neg h3] at hp
        have hpq : p.1 = q.1 := by
          injection hp
        rw [← hpq]
        intro fk hfk
        have hfalse : ((keyMapping p.1).any
            (fun fk => truthyO (dget filters fk))) = false := by
          cases hh : (keyMapping p.1).any (fun fk => truthyO (dget filters fk))
          · rfl
          · exact absurd hh h3
        have := List.any_eq_false.mp hfalse fk hfk
        simpa using this


/-- Witness for C5: with one configured rooms question, empty criteria and an
empty asked set, the returned slot is unasked and its mapped key is not yet
set. -/
theorem C5_next_question_properties_witness :
    ([] : List String).contains ("rooms" : String) = false
    ∧ ∀ fk ∈ keyMapping "rooms", truthyO (dget [] fk) = false :=
  (C5_next_question_properties [("rooms", "R?")] [] []).2 ("rooms", "R?") rfl

/-- C1 counterexample: on the input "3 кімнати, до 50000" whole-message
extraction over empty lookup tables does produce `rooms_in=[3]`,
`price_max=50000`, `price_min=None` — but it also sets the floor bounds
`floor_min=1`, `floor_max=3`, contradicting the claim that no other slot value
is set. -/
theorem C1_scenario_counterexample :
    dget (parse_all_filters emptyTables (strC "3 кімнати, до 50000")) "rooms_in"
      = some (Val.list [VItem.int 3])
    ∧ dget (parse_all_filters emptyTables (strC "3 кімнати, до 50000")) "price_max"
      = some (Val.int 50000)
    ∧ dget (parse_all_filters emptyTables (strC "3 кімнати, до 50000")) "price_min"
      = some Val.none
    ∧ dget (parse_all_filters emptyTables (strC "3 кімнати, до 50000")) "floor_min"
      = some (Val.int 1)
    ∧ dget (parse_all_filters emptyTables (strC "3 кімнати, до 50000")) "floor_max"
      = some (Val.int 3) := by
  decide

/-- C1 amended: the exact update produced on "3 кімнати, до 50000" with empty
tables: the claimed rooms and price values, plus the empty location lists the
location matcher always emits, plus floor bounds 1..3 — the lone small number
3 also reaches the floor heuristic, and the "до" keyword turns it into an
upper bound. -/
theorem C1_scenario_eval :
    parse_all_filters emptyTables (strC "3 кімнати, до 50000")
      = [("district_id", Val.list []), ("microarea_id", Val.list []),
         ("street_id", Val.list []), ("price_max", Val.int 50000),
         ("price_min", Val.none), ("rooms_in", Val.list [VItem.int 3]),
         ("floor_min", Val.int 1), ("floor_max", Val.int 3)] := by
  decide

theorem listMin_mem (l : List Nat) (h : l ≠ []) : listMin l ∈ l := by
  match l with
  | [] => exact absurd rfl h
  | n :: ns =>
    rw [listMin]
    rcases foldl_min_mem ns n with hm | hm
    · rw [hm]
      exact List.mem_cons_self _ _
    · exact List.mem_cons_of_mem _ hm

theorem listMin_le (l : List Nat) : ∀ x ∈ l, listMin l ≤ x := by
  match l with
  | [] => intro x hx; cases hx
  | n :: ns =>
    intro x hx
    rw [listMin]
    rcases List.mem_cons.mp hx with rfl | hx
    · exact foldl_min_le_init ns x
    · exact foldl_min_le_mem ns n x hx

theorem listMax_mem (l : List Nat) (h : l ≠ []) : listMax l ∈ l := by
  match l with
  | [] => exact absurd rfl h
  | n :: ns =>
    rw [listMax]
    rcases foldl_max_mem ns n with hm | hm
    · rw [hm]
      exact List.mem_cons_self _ _
    · exact List.mem_cons_of_mem _ hm

theorem le_listMax (l : List Nat) : ∀ x ∈ l, x ≤ listMax l := by
  match l with
  | [] => intro x hx; cases hx
  | n :: ns =>
    intro x hx
    rw [listMax]
    rcases List.mem_cons.mp hx with rfl | hx
    · exact foldl_max_init_le ns x
    · exact foldl_max_mem_le ns n x hx

theorem dget_two_fst (k1 k2 : String) (v1 v2 : Val) :
    dget [(k1, v1), (k2, v2)] k1 = some v1 := by
  rw [dget_cons]
  simp

theorem dget_two_snd (k1 k2 : String) (v1 v2 : Val) (h : (k1 == k2) = false) :
    dget [(k1, v1), (k2, v2)] k2 = some v2 := by
  have h1 : (((k1, v1)).1 == k2) = false := h
  rw [dget_cons, if_neg (by simp [h1]), dget_cons]
  simp

/-- C3 counterexample: "від 2000 до" holds exactly one integer above 1000 and
a from/minimum keyword, yet price extraction returns `price_max=2000,
price_min=None` — the to/maximum keyword list is consulted first, so the
claim's from-clause fails when both keyword kinds occur. -/
theorem C3_minmax_conflict_counterexample :
    containsAny minWords (lowerL (strC "від 2000 до")) = true
    ∧ (ints (strC "від 2000 до")).filter (fun x => 1000 < x) = [2000]
    ∧ dget (parse_to_filters emptyTables "price" (strC "від 2000 до")) "price_min"
        = some Val.none
    ∧ dget (parse_to_filters emptyTables "price" (strC "від 2000 до")) "price_max"
        = some (Val.int 2000) := by
  decide

/-- C3 amended: with no price pattern rule matching, a single integer above
1000 yields `price_max=N, price_min=None` when a to/maximum keyword is
present; `price_min=N, price_max=None` when a from/minimum keyword is present
and no to/maximum keyword is; `price_max=N, price_min=None` when neither is;
two or more such integers yield `price_min` = the smallest and `price_max` =
the largest, regardless of their order in the text. -/
theorem C3_price_heuristic (T : Tables) (answer : List Nat)
    (hpat : apply_pattern_match T "price" answer = Option.none) :
    (∀ N, (ints answer).filter (fun x => 1000 < x) = [N] →
      ((containsAny maxWords (lowerL answer) = true →
          dget (parse_to_filters T "price" answer) "price_max" = some (Val.int N)
          ∧ dget (parse_to_filters T "price" answer) "price_min" = some Val.none)
       ∧ (containsAny maxWords (lowerL answer) = false →
          containsAny minWords (lowerL answer) = true →
          dget (parse_to_filters T "price" answer) "price_min" = some (Val.int N)
          ∧ dget (parse_to_filters T "price" answer) "price_max" = some Val.none)
       ∧ (containsAny maxWords (lowerL answer) = false →
          containsAny minWords (lowerL answer) = false →
          dget (parse_to_filters T "price" answer) "price_max" = some (Val.int N)
          ∧ dget (parse_to_filters T "price" answer) "price_min" = some Val.none)))
    ∧ (2 ≤ ((ints answer).filter (fun x => 1000 < x)).length →
        ∃ m M : Nat, dget (parse_to_filters T "price" answer) "price_min" = some (Val.int m)
          ∧ dget (parse_to_filters T "price" answer) "price_max" = some (Val.int M)
          ∧ m ∈ (ints answer).filter (fun x => 1000 < x)
          ∧ M ∈ (ints answer).filter (fun x => 1000 < x)
          ∧ ∀ x ∈ (ints answer).filter (fun x => 1000 < x), m ≤ x ∧ x ≤ M) := by
  have hkey : (("price" : String) == "price" || ("price" : String) == "budget")
      = true := by decide
  constructor
  · intro N hN
    have hred : parse_to_filters T "price" answer
        = (if containsAny maxWords (lowerL answer) then
            [("price_max", Val.int N), ("price_min", Val.none)]
          else if containsAny minWords (lowerL answer) then
            [("price_min", Val.int N), ("price_max", Val.none)]
          else
            [("price_max", Val.int N), ("price_min", Val.none)]) := by
      simp only [parse_to_filters, hpat, hkey, if_true, hN]
    refine ⟨fun hmax => ?_, fun hmax hmin => ?_, fun hmax hmin => ?_⟩
    · rw [hred, if_pos hmax]
      exact ⟨dget_two_fst _ _ _ _, dget_two_snd _ _ _ _ (by decide)⟩
    · rw [hred, if_neg (by simp [hmax]), if_pos hmin]
      exact ⟨dget_two_fst _ _ _ _, dget_two_snd _ _ _ _ (by decide)⟩
    · rw [hred, if_neg (by simp [hmax]), if_neg (by simp [hmin])]
      exact ⟨dget_two_fst _ _ _ _, dget_two_snd _ _ _ _ (by decide)⟩
  · intro hlen
    rcases hl : (ints answer).filter (fun x => 1000 < x) with _ | ⟨a, _ | ⟨b, t⟩⟩
    · rw [hl] at hlen
      simp at hlen
    · rw [hl] at hlen
      simp at hlen
    · have hred : parse_to_filters T "price" answer
          = [("price_min", Val.int (listMin (a :: b :: t))),
             ("price_max", Val.int (listMax (a :: b :: t)))] := by
        simp only [parse_to_filters, hpat, hkey, if_true, hl]
      refine ⟨listMin (a :: b :: t), listMax (a :: b :: t), ?_, ?_, ?_, ?_, ?_⟩
      · rw [hred]
        exact dget_two_fst _ _ _ _
      · rw [hred]
        exact dget_two_snd _ _ _ _ (by decide)
      · rw [hl]
        exact listMin_mem _ (by simp)
      · rw [hl]
        exact listMax_mem _ (by simp)
      · rw [hl]
        exact fun x hx => ⟨listMin_le _ x hx, le_listMax _ x hx⟩

/-- Witness for C3 at a single-number answer with no directional keyword. -/
theorem C3_price_heuristic_witness :
    dget (parse_to_filters emptyTables "price" (strC "50000")) "price_max"
      = some (Val.int 50000)
    ∧ dget (parse_to_filters emptyTables "price" (strC "50000")) "price_min"
      = some Val.none :=
  ((C3_price_heuristic emptyTables (strC "50000") rfl).1 50000 (by decide)).2.2
    (by decide) (by decide)

/-- A pattern configuration whose one district rule (phrase "600") makes the
whole-message extractor return the empty update on texts containing 600 —
the only way the numeric-only fallback is reachable. -/
def demoPhraseTables : Tables :=
  { emptyTables with filterPatterns :=
      [("district",
        [{ ptype := "phrase", ptext := strC "600", pmin := Option.none,
           pmax := Option.none, plist := Option.none }])] }

/-- C4 counterexample: on "600 700" (two integers above 500, no price in the
existing criteria) with a configuration under which the multi-slot parser
finds nothing, the fallback stores only `price_max=600` — the smaller value —
and never sets `price_min`; the claimed reshuffle to `price_min=600,
price_max=700` does not happen. -/
theorem C4_fallback_counterexample :
    parse_all_filters demoPhraseTables (strC "600 700") = []
    ∧ extract_numbers (strC "600 700") = [600, 700]
    ∧ dget (smart_parse_filters demoPhraseTables (strC "600 700") []) "price_max"
        = some (Val.int 600)
    ∧ dget (smart_parse_filters demoPhraseTables (strC "600 700") []) "price_min"
        = Option.none := by
  decide

theorem fbStep_price_frozen (st : FBState) (num : Nat)
    (h : st.needsPrice = false) :
    dget (fbStep st num).r "price_min" = dget st.r "price_min"
    ∧ dget (fbStep st num).r "price_max" = dget st.r "price_max"
    ∧ (fbStep st num).needsPrice = false := by
  rw [fbStep]
  by_cases h1 : (num ≤ 7 && st.needsRooms) = true
  · rw [if_pos h1]
    exact ⟨dget_dset_ne _ _ _ _ (by decide), dget_dset_ne _ _ _ _ (by decide), h⟩
  · rw [if_neg h1]
    by_cases h2 : (20 ≤ num && num ≤ 500 && st.needsArea) = true
    · rw [if_pos h2]
      by_cases h3 : (dget st.r "area_min").isNone = true
      · rw [if_pos h3]
        exact ⟨dget_dset_ne _ _ _ _ (by decide), dget_dset_ne _ _ _ _ (by decide), h⟩
      · rw [if_neg h3]
        exact ⟨dget_dset_ne _ _ _ _ (by decide), dget_dset_ne _ _ _ _ (by decide), h⟩
    · rw [if_neg h2]
      have h4 : (500 < num && st.needsPrice) = false := by
        rw [h]
        simp
      rw [if_neg (by simp [h4])]
      exact ⟨rfl, rfl, h⟩

theorem fb_foldl_price_frozen (l : List Nat) (st : FBState)
    (h : st.needsPrice = false) :
    dget (l.foldl fbStep st).r "price_min" = dget st.r "price_min"
    ∧ dget (l.foldl fbStep st).r "price_max" = dget st.r "price_max" := by
  induction l generalizing st with
  | nil => exact ⟨rfl, rfl⟩
  | cons a l ih =>
    rw [List.foldl_cons]
    obtain ⟨e1, e2, e3⟩ := fbStep_price_frozen st a h
    obtain ⟨f1, f2⟩ := ih (fbStep st a) e3
    exact ⟨f1.trans e1, f2.trans e2⟩

theorem fbStep_small (st : FBState) (num : Nat) (h : ¬(500 < num)) :
    dget (fbStep st num).r "price_min" = dget st.r "price_min"
    ∧ dget (fbStep st num).r "price_max" = dget st.r "price_max"
    ∧ (fbStep st num).needsPrice = st.needsPrice := by
  rw [fbStep]
  by_cases h1 : (num ≤ 7 && st.needsRooms) = true
  · rw [if_pos h1]
    exact ⟨dget_dset_ne _ _ _ _ (by decide), dget_dset_ne _ _ _ _ (by decide), rfl⟩
  · rw [if_neg h1]
    by_cases h2 : (20 ≤ num && num ≤ 500 && st.needsArea) = true
    · rw [if_pos h2]
      by_cases h3 : (dget st.r "area_min").isNone = true
      · rw [if_pos h3]
        exact ⟨dget_dset_ne _ _ _ _ (by decide), dget_dset_ne _ _ _ _ (by decide), rfl⟩
      · rw [if_neg h3]
        exact ⟨dget_dset_ne _ _ _ _ (by decide), dget_dset_ne _ _ _ _ (by decide), rfl⟩
    · rw [if_neg h2]
      have h4 : (500 < num && st.needsPrice) = false := by
        simp [h]
      rw [if_neg (by simp [h4])]
      exact ⟨rfl, rfl, rfl⟩

theorem fb_foldl_price (l : List Nat) (st : FBState)
    (hsorted : l.Pairwise (fun a b => a ≤ b))
    (hnp : st.needsPrice = true)
    (hmin : dget st.r "price_min" = Option.none)
    (hmax : dget st.r "price_max" = Option.none)
    (hex : ∃ x ∈ l, 500 < x) :
    dget (l.foldl fbStep st).r "price_min" = Option.none
    ∧ ∃ m : Nat, dget (l.foldl fbStep st).r "price_max" = some (Val.int m)
        ∧ m ∈ l ∧ 500 < m ∧ ∀ x ∈ l, 500 < x → m ≤ x := by
  induction l generalizing st with
  | nil =>
    rcases hex with ⟨x, hx, _⟩
    cases hx
  | cons a l ih =>
    rw [List.foldl_cons]
    rcases List.pairwise_cons.mp hsorted with ⟨hhead, htail⟩
    by_cases ha : 500 < a
    · have hcond : (500 < a && st.needsPrice) = true := by
        simp [ha, hnp]
      have h1 : (a ≤ 7 && st.needsRooms) = false := by
        have : ¬(a ≤ 7) := by omega
        simp [this]
      have h2 : (20 ≤ a && a ≤ 500 && st.needsArea) = false := by
        have : ¬(a ≤ 500) := by omega
        simp [this]
      have hstep : fbStep st a
          = { st with r := dset st.r "price_max" (Val.int a), needsPrice := false } := by
        rw [fbStep, if_neg (by simp [h1]), if_neg (by simp [h2]),
          if_pos hcond, if_pos (by rw [hmin]; rfl)]
      rw [hstep]
      obtain ⟨f1, f2⟩ := fb_foldl_price_frozen l
        { st with r := dset st.r "price_max" (Val.int a), needsPrice := false } rfl
      refine ⟨?_, a, ?_, List.mem_cons_self _ _, ha, ?_⟩
      · rw [f1]
        simpa [dget_dset_ne _ _ _ _ (by decide : ("price_min" : String) ≠ "price_max")]
          using hmin
      · rw [f2]
        exact dget_dset_self _ _ _
      · intro x hx _
        rcases List.mem_cons.mp hx with rfl | hx
        · exact Nat.le_refl x
        · exact hhead x hx
    · obtain ⟨e1, e2, e3⟩ := fbStep_small st a ha
      have hex' : ∃ x ∈ l, 500 < x := by
        rcases hex with ⟨x, hx, hx5⟩
        rcases List.mem_cons.mp hx with rfl | hx
        · exact absurd hx5 ha
        · exact ⟨x, hx, hx5⟩
      obtain ⟨f1, ⟨m, g1, g2, g3, g4⟩⟩ :=
        ih (fbStep st a) htail (e3.trans hnp) (e1.trans hmin) (e2.trans hmax) hex'
      refine ⟨f1, m, g1, List.mem_cons_of_mem _ g2, g3, ?_⟩
      intro x hx hx5
      rcases List.mem_cons.mp hx with rfl | hx
      · exact absurd hx5 ha
      · exact g4 x hx hx5

/-- C4 amended: whenever the whole-message parser returns the empty update and
the message holds an integer above 500 with price absent from the existing
criteria, the numeric-only fallback fills price at most once: `price_max`
receives the smallest extracted value above 500 and `price_min` is never set —
the price category is closed after the first fill, so no reshuffle of a second
value happens. -/
theorem C4_fallback_single_fill (T : Tables) (text : List Nat) (existing : Dict)
    (hall : parse_all_filters T text = [])
    (hpm : dget existing "price_max" = Option.none)
    (hpn : dget existing "price_min" = Option.none)
    (hex : ∃ x ∈ extract_numbers text, 500 < x) :
    dget (smart_parse_filters T text existing) "price_min" = Option.none
    ∧ ∃ m : Nat, dget (smart_parse_filters T text existing) "price_max"
          = some (Val.int m)
        ∧ m ∈ extract_numbers text ∧ 500 < m
        ∧ ∀ x ∈ extract_numbers text, 500 < x → m ≤ x := by
  have hne : (extract_numbers text).isEmpty = false := by
    rcases hex with ⟨x, hx, _⟩
    cases h : (extract_numbers text).isEmpty
    · rfl
    · rw [List.isEmpty_iff] at h
      rw [h] at hx
      cases hx
  have hsmart : smart_parse_filters T text existing
      = fallbackLoop (extract_numbers text) existing := by
    simp only [smart_parse_filters, hall, hne]
    rfl
  rw [hsmart, fallbackLoop, hpm, hpn]
  have hperm := List.perm_insertionSort (fun a b : Nat => a ≤ b) (extract_numbers text)
  have hsorted : (List.insertionSort (fun a b : Nat => a ≤ b)
      (extract_numbers text)).Pairwise (fun a b => a ≤ b) :=
    List.sorted_insertionSort (fun a b : Nat => a ≤ b) (extract_numbers text)
  have hex' : ∃ x ∈ List.insertionSort (fun a b : Nat => a ≤ b)
      (extract_numbers text), 500 < x := by
    rcases hex with ⟨x, hx, hx5⟩
    exact ⟨x, hperm.mem_iff.mpr hx, hx5⟩
  obtain ⟨f1, ⟨m, g1, g2, g3, g4⟩⟩ := fb_foldl_price
    (List.insertionSort (fun a b : Nat => a ≤ b) (extract_numbers text))
    { r := [], needsPrice := Option.none.isNone && Option.none.isNone,
      needsArea := (dget existing "area_min").isNone && (dget existing "area_max").isNone,
      needsRooms := (dget existing "rooms_in").isNone }
    hsorted rfl rfl rfl hex'
  refine ⟨f1, m, g1, hperm.mem_iff.mp g2, g3, ?_⟩
  intro x hx hx5
  exact g4 x (hperm.mem_iff.mpr hx) hx5

/-- Witness for C4 at the concrete blocked parse of "600 700". -/
theorem C4_fallback_single_fill_witness :
    dget (smart_parse_filters demoPhraseTables (strC "600 700") []) "price_min"
      = Option.none
    ∧ ∃ m : Nat, dget (smart_parse_filters demoPhraseTables (strC "600 700") [])
          "price_max" = some (Val.int m)
        ∧ m ∈ extract_numbers (strC "600 700") ∧ 500 < m
        ∧ ∀ x ∈ extract_numbers (strC "600 700"), 500 < x → m ≤ x :=
  C4_fallback_single_fill demoPhraseTables (strC "600 700") [] (by decide) rfl rfl
    ⟨600, by decide, by decide⟩

/-- A skip rule with trigger keyword zzz, for the C6 instances. -/
def demoSkipRule : Pattern :=
  { ptype := "skip", ptext := strC "zzz", pmin := Option.none,
    pmax := Option.none, plist := Option.none }

/-- A price pattern configuration with a phrase rule ordered before a skip
rule. -/
def demoSkipTables : Tables :=
  { emptyTables with filterPatterns :=
      [("price",
        [{ ptype := "phrase", ptext := strC "aaa", pmin := some 2000,
           pmax := Option.none, plist := Option.none },
         demoSkipRule])] }

/-- A configuration holding only the skip rule. -/
def demoSkipOnlyTables : Tables :=
  { emptyTables with filterPatterns := [("price", [demoSkipRule])] }

/-- C6 counterexample: the answer "aaa zzz" contains the skip rule's keyword
zzz, yet the pattern matcher returns the earlier phrase rule's non-empty
update, not the explicit empty one — an earlier matching rule preempts the
skip rule. -/
theorem C6_skip_preempted_counterexample :
    occursIn (strC "zzz") (lowerL (strC "aaa zzz")) = true
    ∧ apply_pattern_match demoSkipTables "price" (strC "aaa zzz")
        = some [("price_min", Val.int 2000)]
    ∧ some [("price_min", Val.int 2000)] ≠ some ([] : Dict) := by
  refine ⟨by decide, by decide, by decide⟩

/-- C6 amended: for a slot with a configured skip rule and an answer
containing one of its keywords, provided no earlier-configured
word/phrase/special rule of that slot matches the answer, the pattern matcher
returns the explicit empty update `some {}` — distinct from the `None` it
returns when nothing matches at all. -/
theorem C6_skip_explicit_empty (T : Tables) (key : String) (answer : List Nat)
    (pre post : List Pattern) (sk : Pattern) (kw : List Nat)
    (hlook : lookupS T.filterPatterns key = some (pre ++ sk :: post))
    (hskip : sk.ptype = "skip")
    (hkw : kw ∈ patKeywords sk)
    (hocc : occursIn kw (lowerL answer) = true)
    (hpre : ∀ p ∈ pre, p.ptype ≠ "skip" → ruleFires p answer = false) :
    apply_pattern_match T key answer = some []
    ∧ apply_pattern_match T key answer ≠ Option.none := by
  have hloop : ∀ pre', (∀ p ∈ pre', p.ptype ≠ "skip" → ruleFires p answer = false) →
      patLoop key answer (pre' ++ sk :: post) = some [] := by
    intro pre'
    induction pre' with
    | nil =>
      intro _
      rw [List.nil_append, patLoop, if_pos (by rw [hskip]; decide),
        if_pos (List.any_eq_true.mpr ⟨kw, hkw, hocc⟩)]
    | cons p pre' ih =>
      intro hp
      rw [List.cons_append, patLoop]
      by_cases hps : (p.ptype == "skip") = true
      · rw [if_pos hps]
        by_cases hany : ((patKeywords p).any
            (fun kw => occursIn kw (lowerL answer))) = true
        · rw [if_pos hany]
        · rw [if_neg hany]
          exact ih (fun q hq => hp q (List.mem_cons_of_mem _ hq))
      · rw [if_neg hps]
        have hf : ruleFires p answer = false :=
          hp p (List.mem_cons_self _ _) (by simpa using hps)
        rw [hf]
        simp only [Bool.false_eq_true, if_false]
        exact ih (fun q hq => hp q (List.mem_cons_of_mem _ hq))
  have hres : apply_pattern_match T key answer = some [] := by
    rw [apply_pattern_match, hlook]
    exact hloop pre hpre
  exact ⟨hres, by rw [hres]; exact fun h => by cases h⟩

/-- Witness for C6 with the skip rule first in the configuration. -/
theorem C6_skip_explicit_empty_witness :
    apply_pattern_match demoSkipOnlyTables "price" (strC "zzz дякую") = some []
    ∧ apply_pattern_match demoSkipOnlyTables "price" (strC "zzz дякую")
        ≠ Option.none :=
  C6_skip_explicit_empty demoSkipOnlyTables "price" (strC "zzz дякую")
    [] [] demoSkipRule (strC "zzz") rfl rfl (by decide) (by decide)
    (fun p hp => absurd hp (List.not_mem_nil p))

theorem addNew_nodup (acc : List Nat) (x : Nat) (h : acc.Nodup) :
    (addNew acc x).Nodup := by
  rw [addNew]
  by_cases hc : acc.contains x = true
  · rw [if_pos hc]
    exact h
  · rw [if_neg hc]
    have hx : x ∉ acc := by
      simp only [Bool.not_eq_true] at hc
      simpa using hc
    simp [List.nodup_append, h, hx]

theorem addAll_nodup (acc xs : List Nat) (h : acc.Nodup) :
    (addAll acc xs).Nodup := by
  induction xs generalizing acc with
  | nil => exact h
  | cons y ys ih => exact ih (addNew acc y) (addNew_nodup acc y h)

theorem combinedLoc_nodup (T : Tables) (text : List Nat) :
    (combinedLoc T text).district.Nodup
    ∧ (combinedLoc T text).microarea.Nodup
    ∧ (combinedLoc T text).street.Nodup := by
  rw [combinedLoc]
  have h : ∀ (ps : List (List Nat)) (acc : LocRes),
      acc.district.Nodup → acc.microarea.Nodup → acc.street.Nodup →
      ((ps.foldl (fun acc part =>
        let pr := match_single_location T part
        { district := addAll acc.district pr.district,
          microarea := addAll acc.microarea pr.microarea,
          street := addAll acc.street pr.street }) acc).district.Nodup
       ∧ (ps.foldl (fun acc part =>
        let pr := match_single_location T part
        { district := addAll acc.district pr.district,
          microarea := addAll acc.microarea pr.microarea,
          street := addAll acc.street pr.street }) acc).microarea.Nodup
       ∧ (ps.foldl (fun acc part =>
        let pr := match_single_location T part
        { district := addAll acc.district pr.district,
          microarea := addAll acc.microarea pr.microarea,
          street := addAll acc.street pr.street }) acc).street.Nodup) := by
    intro ps
    induction ps with
    | nil => exact fun acc h1 h2 h3 => ⟨h1, h2, h3⟩
    | cons part ps ih =>
      intro acc h1 h2 h3
      exact ih _ (addAll_nodup _ _ h1) (addAll_nodup _ _ h2) (addAll_nodup _ _ h3)
  exact h _ _ List.nodup_nil List.nodup_nil List.nodup_nil

theorem dget_entry_ne (k1 : String) (v : Val) (d : Dict) (k : String)
    (h : (k1 == k) = false) : dget ((k1, v) :: d) k = dget d k := by
  rw [dget_cons]
  simp [h]

theorem dget_entry_self (k1 : String) (v : Val) (d : Dict) (k : String)
    (h : (k1 == k) = true) : dget ((k1, v) :: d) k = some v := by
  rw [dget_cons]
  simp [h]

theorem natsIntVal_nodup (l : List Nat) (h : l.Nodup) :
    ∀ xs, natsIntVal l = Val.list xs → xs.Nodup := by
  intro xs hxs
  rw [natsIntVal] at hxs
  injection hxs with h2
  rw [← h2]
  refine h.map ?_
  intro a b hab
  injection hab with h3
  exact Int.ofNat.inj h3

theorem dedupVal_list_nodup (v : Val) (xs : List VItem)
    (h : dedupVal v = Val.list xs) : xs.Nodup := by
  cases v with
  | list l =>
    rw [show dedupVal (Val.list l) = Val.list (pyDedup l) from rfl] at h
    injection h with h2
    rw [← h2]
    exact pyDedup_nodup l
  | none => simp [dedupVal] at h
  | int n => simp [dedupVal] at h
  | bool b => simp [dedupVal] at h
  | str s => simp [dedupVal] at h

/-- C8 counterexample: the rooms answer "2 2" produces `rooms_in=[2,2]` — a
list-valued criteria key with a duplicate — and the criteria merge preserves
it. -/
theorem C8_duplicates_counterexample :
    dget (parse_to_filters emptyTables "rooms" (strC "2 2")) "rooms_in"
      = some (Val.list [VItem.int 2, VItem.int 2])
    ∧ dget (apply_location_filters []
        (parse_to_filters emptyTables "rooms" (strC "2 2"))) "rooms_in"
      = some (Val.list [VItem.int 2, VItem.int 2])
    ∧ ¬ ([VItem.int 2, VItem.int 2] : List VItem).Nodup := by
  refine ⟨by decide, by decide, by decide⟩

/-- C8 amended: the location lists are duplicate-free — every
district/micro-area/street id list produced by the location matcher has no
duplicates, and in the result of a location-bearing merge every stored
location list is deduplicated (rooms_in, by contrast, can hold duplicates,
as the counterexample shows). -/
theorem C8_location_lists_nodup :
    (∀ (T : Tables) (text : List Nat) (k : String) (xs : List VItem),
       (k = "district_id" ∨ k = "microarea_id" ∨ k = "street_id") →
       dget (match_locations T text) k = some (Val.list xs) → xs.Nodup)
    ∧ (∀ (existing update : Dict) (k : String) (xs : List VItem),
       (truthyO (dget update "street_id") || truthyO (dget update "microarea_id")
         || truthyO (dget update "district_id")) = true →
       (k = "district_id" ∨ k = "microarea_id" ∨ k = "street_id") →
       dget (apply_location_filters existing update) k = some (Val.list xs) →
       xs.Nodup) := by
  constructor
  · intro T text k xs hk hget
    obtain ⟨hd, hm, hs⟩ := combinedLoc_nodup T text
    rw [match_locations] at hget
    by_cases hst : (!(combinedLoc T text).street.isEmpty) = true
    · rw [if_pos hst] at hget
      rcases hk with rfl | rfl | rfl
      · rw [dget_entry_ne "street_id" _ _ "district_id" (by decide),
          dget_entry_ne "explicit_street" _ _ "district_id" (by decide),
          dget_entry_self "district_id" _ _ "district_id" (by decide)] at hget
        injection hget with h2
        injection h2.symm with h3
        rw [h3]
        exact List.nodup_nil
      · rw [dget_entry_ne "street_id" _ _ "microarea_id" (by decide),
          dget_entry_ne "explicit_street" _ _ "microarea_id" (by decide),
          dget_entry_ne "district_id" _ _ "microarea_id" (by decide),
          dget_entry_self "microarea_id" _ _ "microarea_id" (by decide)] at hget
        injection hget with h2
        injection h2.symm with h3
        rw [h3]
        exact List.nodup_nil
      · rw [dget_entry_self "street_id" _ _ "street_id" (by decide)] at hget
        injection hget with h2
        exact natsIntVal_nodup _ hs xs h2
    · rw [if_neg hst] at hget
      rcases hk with rfl | rfl | rfl
      · rw [dget_entry_self "district_id" _ _ "district_id" (by decide)] at hget
        injection hget with h2
        exact natsIntVal_nodup _ hd xs h2
      · rw [dget_entry_ne "district_id" _ _ "microarea_id" (by decide),
          dget_entry_self "microarea_id" _ _ "microarea_id" (by decide)] at hget
        injection hget with h2
        exact natsIntVal_nodup _ hm xs h2
      · rw [dget_entry_ne "district_id" _ _ "street_id" (by decide),
          dget_entry_ne "microarea_id" _ _ "street_id" (by decide),
          dget_entry_self "street_id" _ _ "street_id" (by decide)] at hget
        injection hget with h2
        exact natsIntVal_nodup _ hs xs h2
  · intro existing update k xs hcond hk hget
    simp only [apply_location_filters, hcond, if_true] at hget
    have hkloc : locKeys.contains k = true := by
      rcases hk with rfl | rfl | rfl <;> decide
    rw [dget_overlayExceptLoc _ _ _ hkloc] at hget
    by_cases h1 : truthyO (dget update "street_id") = true
    · rw [if_pos h1] at hget
      rcases hk with rfl | rfl | rfl
      · rw [dget_dset_ne _ _ _ _ (by decide), dget_dset_ne _ _ _ _ (by decide),
          dget_filter_none _ (fun s => !(locKeys.contains s)) _ (by decide)] at hget
        cases hget
      · rw [dget_dset_ne _ _ _ _ (by decide), dget_dset_ne _ _ _ _ (by decide),
          dget_filter_none _ (fun s => !(locKeys.contains s)) _ (by decide)] at hget
        cases hget
      · rw [dget_dset_ne _ _ _ _ (by decide), dget_dset_self] at hget
        injection hget with h2
        exact dedupVal_list_nodup _ _ h2
    · rw [if_neg h1] at hget
      by_cases h2 : truthyO (dget update "microarea_id") = true
      · rw [if_pos h2] at hget
        rcases hk with rfl | rfl | rfl
        · rw [dget_dset_ne _ _ _ _ (by decide),
            dget_filter_none _ (fun s => !(locKeys.contains s)) _ (by decide)] at hget
          cases hget
        · rw [dget_dset_self] at hget
          injection hget with h3
          exact dedupVal_list_nodup _ _ h3
        · rw [dget_dset_ne _ _ _ _ (by decide),
            dget_filter_none _ (fun s => !(locKeys.contains s)) _ (by decide)] at hget
          cases hget
      · rw [if_neg h2] at hget
        rcases hk with rfl | rfl | rfl
        · rw [dget_dset_self] at hget
          injection hget with h3
          exact dedupVal_list_nodup _ _ h3
        · rw [dget_dset_ne _ _ _ _ (by decide),
            dget_filter_none _ (fun s => !(locKeys.contains s)) _ (by decide)] at hget
          cases hget
        · rw [dget_dset_ne _ _ _ _ (by decide),
            dget_filter_none _ (fun s => !(locKeys.contains s)) _ (by decide)] at hget
          cases hget

/-- Witness for C8 at a concrete extraction (no street found: empty list) and
a concrete street-bearing merge with a duplicated id. -/
theorem C8_location_lists_nodup_witness :
    ([] : List VItem).Nodup ∧ ([VItem.int 7, VItem.int 5] : List VItem).Nodup :=
  ⟨C8_location_lists_nodup.1 emptyTables (strC "абв") "street_id" []
      (Or.inr (Or.inr rfl)) (by decide),
   C8_location_lists_nodup.2 []
      [("street_id", Val.list [VItem.int 7, VItem.int 7, VItem.int 5])]
      "street_id" [VItem.int 7, VItem.int 5] (by decide)
      (Or.inr (Or.inr rfl)) (by decide)⟩

theorem pyLower_eq_self (x : Nat) (h1 : ¬(65 ≤ x ∧ x ≤ 90))
    (h2 : ¬(0x400 ≤ x ∧ x ≤ 0x42F)) (h3 : x ≠ 0x490) : pyLower x = x := by
  unfold pyLower
  split_ifs <;> omega

theorem pyLower_out (c : Nat) :
    ¬(65 ≤ pyLower c ∧ pyLower c ≤ 90)
    ∧ ¬(0x400 ≤ pyLower c ∧ pyLower c ≤ 0x42F)
    ∧ pyLower c ≠ 0x490 := by
  unfold pyLower
  split_ifs <;> omega

theorem pyLower_idem (c : Nat) : pyLower (pyLower c) = pyLower c := by
  obtain ⟨h1, h2, h3⟩ := pyLower_out c
  exact pyLower_eq_self _ h1 h2 h3

theorem pyReplace_eq_self (x : Nat) (h1 : x ≠ 0x456) (h2 : x ≠ 0x457)
    (h3 : x ≠ 0x454) (h4 : x ≠ 0x491) : pyReplace x = x := by
  unfold pyReplace
  split_ifs <;> omega

theorem pyReplace_out (c : Nat) :
    pyReplace c ≠ 0x456 ∧ pyReplace c ≠ 0x457 ∧ pyReplace c ≠ 0x454
    ∧ pyReplace c ≠ 0x491 ∨ pyReplace c = c := by
  unfold pyReplace
  split_ifs <;> omega

theorem pyReplace_idem (c : Nat) : pyReplace (pyReplace c) = pyReplace c := by
  rcases pyReplace_out c with ⟨h1, h2, h3, h4⟩ | h
  · exact pyReplace_eq_self _ h1 h2 h3 h4
  · rcases pyReplace_out c with ⟨h1, h2, h3, h4⟩ | h'
    · exact pyReplace_eq_self _ h1 h2 h3 h4
    · rw [h', h']

theorem pyReplace_keeps_out (x : Nat) (h1 : ¬(65 ≤ x ∧ x ≤ 90))
    (h2 : ¬(0x400 ≤ x ∧ x ≤ 0x42F)) (h3 : x ≠ 0x490) :
    ¬(65 ≤ pyReplace x ∧ pyReplace x ≤ 90)
    ∧ ¬(0x400 ≤ pyReplace x ∧ pyReplace x ≤ 0x42F)
    ∧ pyReplace x ≠ 0x490 := by
  unfold pyReplace
  split_ifs <;> omega

theorem pyLower_pyReplace_lower (c : Nat) :
    pyLower (pyReplace (pyLower c)) = pyReplace (pyLower c) := by
  obtain ⟨h1, h2, h3⟩ := pyLower_out c
  obtain ⟨g1, g2, g3⟩ := pyReplace_keeps_out _ h1 h2 h3
  exact pyLower_eq_self _ g1 g2 g3

theorem space_not_keep (c : Nat) (h : isSpaceB c = true) : keepB c = false := by
  simp only [isSpaceB, Bool.or_eq_true, beq_iff_eq] at h
  cases hk : keepB c
  · rfl
  · exfalso
    simp only [keepB, isWordB, Bool.or_eq_true, Bool.and_eq_true, beq_iff_eq,
      decide_eq_true_eq] at hk
    omega

theorem map_self_of {f : Nat → Nat} :
    ∀ l : List Nat, (∀ c ∈ l, f c = c) → l.map f = l := by
  intro l
  induction l with
  | nil => intro _; rfl
  | cons a l ih =>
    intro h
    rw [List.map_cons, h a (List.mem_cons_self _ _),
      ih (fun c hc => h c (List.mem_cons_of_mem _ hc))]

theorem mem_subRunsAux (p : Nat → Bool) (r : Nat) :
    ∀ (b : Bool) (l : List Nat) (c : Nat),
      c ∈ subRunsAux p r b l → c = r ∨ (c ∈ l ∧ p c = false) := by
  intro b l
  induction l generalizing b with
  | nil =>
    intro c hc
    cases b <;> cases hc
  | cons a l ih =>
    intro c hc
    cases b
    · rw [subRunsAux] at hc
      by_cases hp : p a = true
      · rw [if_pos hp] at hc
        rcases List.mem_cons.mp hc with rfl | hc
        · exact Or.inl rfl
        · rcases ih true c hc with h | ⟨h1, h2⟩
          · exact Or.inl h
          · exact Or.inr ⟨List.mem_cons_of_mem _ h1, h2⟩
      · rw [if_neg hp] at hc
        rcases List.mem_cons.mp hc with rfl | hc
        · exact Or.inr ⟨List.mem_cons_self _ _, by simpa using hp⟩
        · rcases ih false c hc with h | ⟨h1, h2⟩
          · exact Or.inl h
          · exact Or.inr ⟨List.mem_cons_of_mem _ h1, h2⟩
    · rw [subRunsAux] at hc
      by_cases hp : p a = true
      · rw [if_pos hp] at hc
        rcases ih true c hc with h | ⟨h1, h2⟩
        · exact Or.inl h
        · exact Or.inr ⟨List.mem_cons_of_mem _ h1, h2⟩
      · rw [if_neg hp] at hc
        rcases List.mem_cons.mp hc with rfl | hc
        · exact Or.inr ⟨List.mem_cons_self _ _, by simpa using hp⟩
        · rcases ih false c hc with h | ⟨h1, h2⟩
          · exact Or.inl h
          · exact Or.inr ⟨List.mem_cons_of_mem _ h1, h2⟩

theorem subRunsAux_true_head (p : Nat → Bool) (r : Nat) :
    ∀ (l : List Nat) (x : Nat) (xs : List Nat),
      subRunsAux p r true l = x :: xs → p x = false := by
  intro l
  induction l with
  | nil =>
    intro x xs h
    cases h
  | cons a l ih =>
    intro x xs h
    rw [subRunsAux] at h
    by_cases hp : p a = true
    · rw [if_pos hp] at h
      exact ih x xs h
    · rw [if_neg hp] at h
      injection h with h1 _
      rw [← h1]
      simpa using hp

theorem chain'_subRunsAux (p : Nat → Bool) (r : Nat) :
    ∀ (b : Bool) (l : List Nat),
      List.Chain' (fun a b => p a = false ∨ p b = false) (subRunsAux p r b l) := by
  intro b l
  induction l generalizing b with
  | nil => cases b <;> exact List.chain'_nil
  | cons a l ih =>
    cases b
    · rw [subRunsAux]
      by_cases hp : p a = true
      · rw [if_pos hp]
        rw [List.chain'_cons']
        refine ⟨?_, ih true⟩
        intro y hy
        rcases hX : subRunsAux p r true l with _ | ⟨x, xs⟩
        · rw [hX] at hy
          cases hy
        · rw [hX] at hy
          have hxy : x = y := by
            simpa using hy
          rw [← hxy]
          exact Or.inr (subRunsAux_true_head p r l x xs hX)
      · rw [if_neg hp]
        rw [List.chain'_cons']
        exact ⟨fun y _ => Or.inl (by simpa using hp), ih false⟩
    · rw [subRunsAux]
      by_cases hp : p a = true
      · rw [if_pos hp]
        exact ih true
      · rw [if_neg hp]
        rw [List.chain'_cons']
        exact ⟨fun y _ => Or.inl (by simpa using hp), ih false⟩

theorem subRuns_fix (p : Nat → Bool) (r : Nat) (_hr : p r = true) :
    ∀ l : List Nat, (∀ c ∈ l, p c = true → c = r) →
      List.Chain' (fun a b => p a = false ∨ p b = false) l →
      subRuns p r l = l := by
  intro l
  induction l with
  | nil => intro _ _; rfl
  | cons a l ih =>
    intro hall hch
    rw [subRuns, subRunsAux]
    by_cases hp : p a = true
    · rw [if_pos hp]
      have ha : a = r := hall a (List.mem_cons_self _ _) hp
      rcases l with _ | ⟨b, l'⟩
      · rw [ha]
        rfl
      · have hb : p b = false := by
          rcases (List.chain'_cons.mp hch).1 with h | h
          · rw [hp] at h
            cases h
          · exact h
        have hih : subRuns p r (b :: l') = b :: l' :=
          ih (fun c hc hpc => hall c (List.mem_cons_of_mem _ hc) hpc)
            (List.chain'_cons.mp hch).2
        rw [subRuns, subRunsAux, if_neg (by simp [hb])] at hih
        injection hih with _ htail
        rw [subRunsAux, if_neg (by simp [hb]), ha, htail]
    · rw [if_neg hp]
      have hih : subRuns p r l = l :=
        ih (fun c hc hpc => hall c (List.mem_cons_of_mem _ hc) hpc) hch.tail
      rw [subRuns] at hih
      rw [hih]

theorem pyStrip_within (l : List Nat) : pyStrip l <:+: l :=
  (List.rdropWhile_prefix _ _).isInfix.trans (List.dropWhile_suffix _).isInfix

theorem mem_pyStrip (l : List Nat) (c : Nat) (h : c ∈ pyStrip l) : c ∈ l :=
  (pyStrip_within l).subset h

theorem dropWhile_of_pyStrip (l : List Nat) :
    List.dropWhile isSpaceB (pyStrip l) = pyStrip l := by
  rw [List.dropWhile_eq_self_iff]
  intro hl
  obtain ⟨t, ht⟩ :=
    List.rdropWhile_prefix isSpaceB (List.dropWhile isSpaceB l)
  have hlen : 0 < (List.dropWhile isSpaceB l).length := by
    have := List.IsPrefix.length_le ⟨t, ht⟩
    rw [pyStrip] at hl
    omega
  have h0 := List.dropWhile_get_zero_not isSpaceB l hlen
  have hEq : (List.dropWhile isSpaceB l).get ⟨0, hlen⟩
      = (pyStrip l).get ⟨0, hl⟩ := by
    calc (List.dropWhile isSpaceB l).get ⟨0, hlen⟩
        = (pyStrip l ++ t).get ⟨0, ht ▸ hlen⟩ := List.get_of_eq ht.symm ⟨0, hlen⟩
      _ = (pyStrip l).get ⟨0, hl⟩ := List.get_append_left _ _ hl
  rw [hEq] at h0
  exact h0

theorem pyStrip_idem (l : List Nat) : pyStrip (pyStrip l) = pyStrip l := by
  conv_lhs => rw [pyStrip, dropWhile_of_pyStrip]
  rw [show pyStrip l = List.rdropWhile isSpaceB (List.dropWhile isSpaceB l) from rfl,
    List.rdropWhile_idempotent]

theorem chain'_imp_mem {R S : Nat → Nat → Prop} :
    ∀ l : List Nat, (∀ a ∈ l, ∀ b ∈ l, R a b → S a b) →
      List.Chain' R l → List.Chain' S l := by
  intro l
  induction l with
  | nil => intro _ _; exact List.chain'_nil
  | cons a l ih =>
    intro himp hch
    rw [List.chain'_cons'] at hch ⊢
    refine ⟨?_, ih (fun x hx y hy => himp x (List.mem_cons_of_mem _ hx)
      y (List.mem_cons_of_mem _ hy)) hch.2⟩
    intro y hy
    exact himp a (List.mem_cons_self _ _) y
      (List.mem_cons_of_mem _ (List.mem_of_mem_head? hy)) (hch.1 y hy)

/-- A fully normalized text is a fixed point of `norm`: all its characters are
lowercase-and-replacement-fixed, its non-kept characters are single interior
spaces, and it carries no leading or trailing whitespace. -/
theorem norm_fix (t : List Nat)
    (hmem : ∀ c ∈ t, c = 32 ∨ ∃ d, c = pyReplace (pyLower d))
    (hkeepOr : ∀ c ∈ t, c = 32 ∨ keepB c = true)
    (hchainBad : List.Chain'
      (fun a b => (!keepB a) = false ∨ (!keepB b) = false) t)
    (hstrip : pyStrip t = t) : norm t = t := by
  have hlowfix : ∀ c ∈ t, pyLower c = c := by
    intro c hc
    rcases hmem c hc with rfl | ⟨d, rfl⟩
    · decide
    · exact pyLower_pyReplace_lower d
  have hrepfix : ∀ c ∈ t, pyReplace c = c := by
    intro c hc
    rcases hmem c hc with rfl | ⟨d, rfl⟩
    · decide
    · exact pyReplace_idem (pyLower d)
  have hbad32 : ∀ c ∈ t, (!keepB c) = true → c = 32 := by
    intro c hc hb
    rcases hkeepOr c hc with rfl | hk
    · rfl
    · rw [hk] at hb
      cases hb
  have hsp32 : ∀ c ∈ t, isSpaceB c = true → c = 32 := by
    intro c hc hspc
    rcases hkeepOr c hc with rfl | hk
    · rfl
    · rw [space_not_keep c hspc] at hk
      cases hk
  have hchainSpace : List.Chain'
      (fun a b => isSpaceB a = false ∨ isSpaceB b = false) t := by
    refine List.Chain'.imp ?_ hchainBad
    intro a b hab
    rcases hab with h | h
    · left
      cases hs : isSpaceB a
      · rfl
      · rw [space_not_keep a hs] at h
        cases h
    · right
      cases hs : isSpaceB b
      · rfl
      · rw [space_not_keep b hs] at h
        cases h
  rw [norm, map_self_of t hlowfix, hstrip, map_self_of t hrepfix,
    subRuns_fix (fun c => !keepB c) 32 (by decide) t hbad32 hchainBad,
    subRuns_fix isSpaceB 32 (by decide) t hsp32 hchainSpace, hstrip]

/-- The output of `norm` satisfies the normalized-shape properties. -/
theorem norm_props (l : List Nat) :
    (∀ c ∈ norm l, c = 32 ∨ ∃ d, c = pyReplace (pyLower d))
    ∧ (∀ c ∈ norm l, c = 32 ∨ keepB c = true)
    ∧ List.Chain' (fun a b => (!keepB a) = false ∨ (!keepB b) = false) (norm l)
    ∧ pyStrip (norm l) = norm l := by
  have hmemu2 : ∀ c ∈ norm l,
      c ∈ subRuns isSpaceB 32 (subRuns (fun c => !keepB c) 32
        ((pyStrip (l.map pyLower)).map pyReplace)) := by
    intro c hc
    exact mem_pyStrip _ c hc
  refine ⟨?_, ?_, ?_, ?_⟩
  · intro c hc
    rcases mem_subRunsAux isSpaceB 32 false _ c (hmemu2 c hc) with rfl | ⟨hc1, _⟩
    · exact Or.inl rfl
    rcases mem_subRunsAux (fun c => !keepB c) 32 false _ c hc1 with rfl | ⟨hc0, _⟩
    · exact Or.inl rfl
    rcases List.mem_map.mp hc0 with ⟨d0, hd0, rfl⟩
    rcases List.mem_map.mp (mem_pyStrip _ d0 hd0) with ⟨e, _, rfl⟩
    exact Or.inr ⟨e, rfl⟩
  · intro c hc
    rcases mem_subRunsAux isSpaceB 32 false _ c (hmemu2 c hc) with rfl | ⟨hc1, _⟩
    · exact Or.inl rfl
    rcases mem_subRunsAux (fun c => !keepB c) 32 false _ c hc1 with rfl | ⟨_, hbad⟩
    · exact Or.inl rfl
    · right
      simpa using hbad
  · have hb2s : ∀ c ∈ subRuns isSpaceB 32 (subRuns (fun c => !keepB c) 32
        ((pyStrip (l.map pyLower)).map pyReplace)),
        (!keepB c) = true → isSpaceB c = true := by
      intro c hc hbadc
      rcases mem_subRunsAux isSpaceB 32 false _ c hc with rfl | ⟨hc1, _⟩
      · decide
      rcases mem_subRunsAux (fun c => !keepB c) 32 false _ c hc1 with rfl | ⟨_, hkeep⟩
      · decide
      · rw [hkeep] at hbadc
        cases hbadc
    have hchainU2 : List.Chain'
        (fun a b => (!keepB a) = false ∨ (!keepB b) = false)
        (subRuns isSpaceB 32 (subRuns (fun c => !keepB c) 32
          ((pyStrip (l.map pyLower)).map pyReplace))) := by
      refine chain'_imp_mem _ ?_ (chain'_subRunsAux isSpaceB 32 false _)
      intro a ha b hb hab
      by_cases hba : (!keepB a) = true
      · by_cases hbb : (!keepB b) = true
        · rcases hab with h | h
          · rw [hb2s a ha hba] at h
            cases h
          · rw [hb2s b hb hbb] at h
            cases h
        · exact Or.inr (by simpa using hbb)
      · exact Or.inl (by simpa using hba)
    exact hchainU2.infix (pyStrip_within _)
  · exact pyStrip_idem _

/-- C9: the text normalizer is idempotent — normalizing twice equals
normalizing once (it is a pure function of its input, so determinism and
absence of side effects hold by construction in this model). -/
theorem C9_norm_idempotent (l : List Nat) : norm (norm l) = norm l := by
  obtain ⟨h1, h2, h3, h4⟩ := norm_props l
  exact norm_fix (norm l) h1 h2 h3 h4

end Realtor
